import Mathlib

/-!
# Verification of the Custom_Sampling graph-sampling engines

Shallow embedding of `src/Custom_Sampling.py` (engines `RWEB`, `IRWEB`, `SB`,
`TIES` over undirected `networkx` graphs) and proofs of the specification
claims about them.

Modelling conventions:
* A `networkx.Graph` is an `SGraph`: a finite node set over `ℕ` and a finite
  edge set stored symmetrically (both `(u,v)` and `(v,u)` are kept, mirroring
  the undirected adjacency structure).  `add_edge` inserts both endpoints as
  nodes, as in networkx.
* Python's implicitly seeded global randomness is modelled by explicit choice
  streams (`cs : List ℕ`): `random.choice` picks index `c % length` from the
  list, `random.shuffle` is `shuffleWith` driven by a stream (every element of
  the shuffled list is an element of the input list).  Claims are proved for
  all streams, covering every outcome the Python RNG can produce.
* `nx.convert_node_labels_to_integers` is `relabel`, mapping the nodes to
  `0..N-1` along the ascending enumeration of the node set (networkx uses its
  internal iteration order; any fixed bijection is a faithful model and the
  claims never depend on which one is used).
* Python `while` loops over mutable state become fuel-indexed structural
  recursion on an explicit state record; the top-level wrappers supply fuel
  that provably exceeds the number of iterations the loop can make, and the
  termination-sensitive claim (RWEB reaching `max_n`) is proved via an
  explicit decreasing measure, not by assumption.
* The Python engines raise no exceptions anywhere, so they are embedded as
  total functions; "fails fast with an error" is refuted by exhibiting the
  (degenerate) value an engine returns.
-/

/-- Undirected graph: finite node set and symmetric finite edge set,
modelling `networkx.Graph`. -/
structure SGraph where
  nodes : Finset ℕ
  edges : Finset (ℕ × ℕ)
deriving DecidableEq

/-- `nx.Graph()` -/
def SGraph.empty : SGraph := ⟨∅, ∅⟩

instance : Inhabited SGraph := ⟨SGraph.empty⟩

/-- `G.add_node(u)` -/
def SGraph.addNode (g : SGraph) (u : ℕ) : SGraph := ⟨insert u g.nodes, g.edges⟩

/-- `G.add_edge(u, v)` (also inserts the endpoints, as in networkx; the edge
is stored in both directions since the graph is undirected). -/
def SGraph.addEdge (g : SGraph) (u v : ℕ) : SGraph :=
  ⟨insert u (insert v g.nodes), insert (u, v) (insert (v, u) g.edges)⟩

/-- `G.remove_edge(u, v)` -/
def SGraph.removeEdge (g : SGraph) (u v : ℕ) : SGraph :=
  ⟨g.nodes, (g.edges.erase (u, v)).erase (v, u)⟩

/-- `G.neighbors(u)` as a set -/
def SGraph.nbrs (g : SGraph) (u : ℕ) : Finset ℕ :=
  g.nodes.filter (fun v => (u, v) ∈ g.edges)

/-- Ascending enumeration of a finite set of naturals (kernel-reducible:
`Finset.sort` is avoided because `decide` must evaluate the engines). -/
def sortedList (s : Finset ℕ) : List ℕ :=
  (List.range (s.sup id + 1)).filter (fun x => x ∈ s)

/-- `list(G.neighbors(u))`: networkx yields neighbors in adjacency-dict order;
any fixed enumeration is faithful since the random index ranges over all
positions. -/
def SGraph.nbrList (g : SGraph) (u : ℕ) : List ℕ := sortedList (g.nbrs u)

/-- `list(G.nodes())` -/
def SGraph.nodeList (g : SGraph) : List ℕ := sortedList g.nodes

/-- `G.subgraph(s)`: induced subgraph on the node set `s`. -/
def SGraph.induced (g : SGraph) (s : Finset ℕ) : SGraph :=
  ⟨g.nodes ∩ s, g.edges.filter (fun p => p.1 ∈ s ∧ p.2 ∈ s)⟩

/-- `H.add_nodes_from(view.nodes()); H.add_edges_from(view.edges())` -/
def SGraph.gunion (g h : SGraph) : SGraph := ⟨g.nodes ∪ h.nodes, g.edges ∪ h.edges⟩

/-- Well-formedness of the graph value: the edge set is symmetric and edge
endpoints are nodes (true of every `networkx.Graph`). -/
def SGraph.WF (g : SGraph) : Prop :=
  ∀ p ∈ g.edges, (p.2, p.1) ∈ g.edges ∧ p.1 ∈ g.nodes ∧ p.2 ∈ g.nodes

instance (g : SGraph) : Decidable g.WF := by unfold SGraph.WF; infer_instance

/-- `list(G.edges())`: one entry per undirected edge, in canonical
orientation (the scan order and orientation are randomized downstream). -/
def SGraph.edgeList (g : SGraph) : List (ℕ × ℕ) :=
  (sortedList g.nodes).flatMap
    (fun u => ((sortedList g.nodes).filter (fun v => u ≤ v ∧ (u, v) ∈ g.edges)).map
      (fun v => (u, v)))

/-- `random.choice(l)` with choice stream head `c`. -/
def pickFrom (c : ℕ) (l : List ℕ) : ℕ := l.getD (c % l.length) 0

/-- Fisher-Yates-style shuffle driven by a choice stream (fuelled so that it
is structural recursion and kernel-reducible). -/
def shuffleGo {α : Type} : ℕ → List ℕ → List α → List α
  | 0, _, l => l
  | _ + 1, _, [] => []
  | fuel + 1, cs, a :: t =>
    let i := cs.headD 0 % (a :: t).length
    (a :: t).getD i a :: shuffleGo fuel cs.tail ((a :: t).eraseIdx i)

/-- `random.shuffle(l)` with choice stream `cs`. -/
def shuffleWith {α : Type} (cs : List ℕ) (l : List α) : List α :=
  shuffleGo l.length cs l

/-- Random per-edge orientation of an edge list (networkx reports each
undirected edge in an internal orientation; the stream picks one). -/
def orientWith : List ℕ → List (ℕ × ℕ) → List (ℕ × ℕ)
  | _, [] => []
  | cs, e :: r =>
    (if cs.headD 0 % 2 = 0 then e else (e.2, e.1)) :: orientWith cs.tail r

/-- Position of node `u` in the integer relabeling. -/
def relabelIdx (g : SGraph) (u : ℕ) : ℕ := (sortedList g.nodes).indexOf u

/-- `nx.convert_node_labels_to_integers(G.copy(), 0, 'default', True)`:
nodes become `0..N-1`, edges are mapped along the relabeling. -/
def relabel (g : SGraph) : SGraph :=
  ⟨Finset.range g.nodes.card,
   g.edges.image (fun p => (relabelIdx g p.1, relabelIdx g p.2))⟩

/-- Checkpoint Tracker: `while idx < len(sizes) and current >= sizes[idx]:
store a copy of the snapshot; idx += 1`.  The slot array plus cursor is
represented as the list of already-filled snapshots (`filled`, in slot
order) plus the remaining thresholds (`rem`). -/
def advanceCps (curSize : ℕ) (snap : SGraph) :
    List ℕ → List SGraph → List ℕ × List SGraph
  | [], filled => ([], filled)
  | t :: rest, filled =>
    if t ≤ curSize then advanceCps curSize snap rest (filled ++ [snap])
    else (t :: rest, filled)

/-- Shared start-node selection: `random.choice(list(G.nodes()))`. -/
def pickStart (g0 : SGraph) (cs : List ℕ) : ℕ := pickFrom (cs.headD 0) g0.nodeList

/-- Generic fuelled `while` loop: one iteration consumes the head of the
randomness stream and either steps (`some`) or reports that the loop guard
failed (`none`). -/
def iterOpt {σ ρ : Type} (dflt : ρ) (f : ρ → σ → Option σ) : ℕ → List ρ → σ → σ
  | 0, _, st => st
  | fuel + 1, cs, st =>
    match f (cs.headD dflt) st with
    | none => st
    | some st2 => iterOpt dflt f fuel cs.tail st2

/-! ## RWEB (`Custom_Sampling.py` lines 6-106) -/

/-- Mutable state of the RWEB walk: working copy, sampled graph, stack and
checkpoint tracker state. -/
structure RWState where
  work : SGraph
  samp : SGraph
  stk : List ℕ
  rem : List ℕ
  filled : List SGraph
deriving DecidableEq

/-- The RWEB main loop (`while sampled_graph.number_of_nodes() < max_n and
stack:`), fuelled.  The stack top is the list head.  The conditional
`add_node` before `add_edge` in the source is subsumed by `addEdge`, which
inserts both endpoints; `node_added_to_sample` is the test
`nxt ∉ st.samp.nodes` evaluated before the additions, exactly as in the
source. -/
def rwebStep (c : ℕ) (st : RWState) : RWState :=
  match st.stk with
  | [] => st
  | cur :: rest =>
    let nl := st.work.nbrList cur
    if nl.isEmpty then { st with stk := rest }
    else
      let nxt := nl.getD (c % nl.length) 0
      let isNew := nxt ∉ st.samp.nodes
      let st' : RWState :=
        { st with
          work := st.work.removeEdge cur nxt
          samp := st.samp.addEdge cur nxt
          stk := nxt :: cur :: rest }
      if isNew then
        let rf := advanceCps st'.samp.nodes.card st'.samp st.rem st.filled
        { st' with rem := rf.1, filled := rf.2 }
      else st'

/-- Guarded RWEB iteration (`none` when the loop guard fails). -/
def rwebNext (maxN c : ℕ) (st : RWState) : Option RWState :=
  if st.samp.nodes.card < maxN ∧ st.stk ≠ [] then some (rwebStep c st) else none

/-- The fuelled RWEB main loop. -/
def rwebLoop (maxN : ℕ) : ℕ → List ℕ → RWState → RWState :=
  iterOpt 0 (rwebNext maxN)

/-- Initial RWEB state: random start node pushed and sampled, thresholds
sorted, and the pre-loop checkpoint check for the one-node sample. -/
def rwebInit (g0 : SGraph) (sizes cs : List ℕ) : RWState :=
  let start := pickStart g0 cs
  let samp0 := SGraph.empty.addNode start
  let rf := advanceCps samp0.nodes.card samp0 (List.insertionSort (· ≤ ·) sizes) []
  ⟨g0, samp0, [start], rf.1, rf.2⟩

/-- State of the RWEB engine when its main loop exits (meaningful for a
non-empty graph).  The fuel strictly dominates the loop measure
`2 * edges + stack length`. -/
def RWEBstate (g : SGraph) (maxN : ℕ) (sizes cs : List ℕ) : RWState :=
  let g0 := relabel g
  rwebLoop maxN (2 * g0.edges.card + g0.nodes.card + 1) cs.tail (rwebInit g0 sizes cs)

/-- Finalization pass: unfilled slots receive the final sampled graph, or an
empty graph if the sample has no nodes. -/
def checkFinalize (st : RWState) : List SGraph :=
  st.filled ++
    List.replicate st.rem.length
      (if 0 < st.samp.nodes.card then st.samp else SGraph.empty)

/-- `RWEB(G, max_n, checkpoint_sizes)`; `cs` is the randomness stream. -/
def RWEB (g : SGraph) (maxN : ℕ) (sizes cs : List ℕ) : List SGraph :=
  if (relabel g).nodeList.isEmpty then List.replicate sizes.length SGraph.empty
  else checkFinalize (RWEBstate g maxN sizes cs)

/-! ## IRWEB (`Custom_Sampling.py` lines 109-196) -/

/-- Mutable state of the IRWEB walk: sampled graph, walk-visited node set,
walked-edge set (both directions), stack and the active node
(`current_node`, tracked separately from the stack in the source). -/
structure IRState where
  samp : SGraph
  vis : Finset ℕ
  walked : Finset (ℕ × ℕ)
  stk : List ℕ
  cur : ℕ
deriving DecidableEq

/-- `{node} | set(G.neighbors(node))` -/
def closedNbhd (g : SGraph) (u : ℕ) : Finset ℕ := insert u (g.nbrs u)

/-- Local induction: merge the induced subgraph on the closed neighborhood of
`u` into the sample. -/
def localInduce (g samp : SGraph) (u : ℕ) : SGraph :=
  samp.gunion (g.induced (closedNbhd g u))

/-- Un-walked moves available from the active node. -/
def irwebAvail (g : SGraph) (st : IRState) : List ℕ :=
  (g.nbrList st.cur).filter
    (fun w => (st.cur, w) ∉ st.walked ∧ (w, st.cur) ∉ st.walked)

/-- The walk's next node, chosen from the available moves by the stream head. -/
def irwebPick (g : SGraph) (c : ℕ) (st : IRState) : ℕ :=
  (irwebAvail g st).getD (c % (irwebAvail g st).length) 0

/-- Move to a not-yet-visited node: mark the walked edge, count the node,
push it and run local induction. -/
def irwebMoveFresh (g : SGraph) (nxt : ℕ) (st : IRState) : IRState :=
  { samp := localInduce g st.samp nxt
    vis := insert nxt st.vis
    walked := insert (st.cur, nxt) (insert (nxt, st.cur) st.walked)
    stk := nxt :: st.stk
    cur := nxt }

/-- Move to an already-visited node: mark the walked edge and move the active
node, without pushing or inducting. -/
def irwebMoveOld (nxt : ℕ) (st : IRState) : IRState :=
  { st with
    walked := insert (st.cur, nxt) (insert (nxt, st.cur) st.walked)
    cur := nxt }

/-- One iteration of the IRWEB loop body (the loop guard holds on entry, so
the stack is non-empty in the backtrack branch). -/
def irwebBody (g : SGraph) (c : ℕ) (st : IRState) : IRState :=
  if (irwebAvail g st).isEmpty then
    match st.stk with
    | [] => st
    | _ :: rest => { st with stk := rest, cur := rest.headD st.cur }
  else
    if irwebPick g c st ∉ st.vis then irwebMoveFresh g (irwebPick g c st) st
    else irwebMoveOld (irwebPick g c st) st

/-- Guarded step: `while len(visited) < n and stack:`. -/
def irwebNext (g : SGraph) (n c : ℕ) (st : IRState) : Option IRState :=
  if st.vis.card < n ∧ st.stk ≠ [] then some (irwebBody g c st) else none

/-- The fuelled IRWEB main loop. -/
def irwebLoop (g : SGraph) (n : ℕ) : ℕ → List ℕ → IRState → IRState :=
  iterOpt 0 (irwebNext g n)

/-- Initial IRWEB state: random start, initial local induction, start node
visited and pushed. -/
def irwebInit (g0 : SGraph) (cs : List ℕ) : IRState :=
  let c0 := pickStart g0 cs
  ⟨localInduce g0 SGraph.empty c0, {c0}, ∅, [c0], c0⟩

/-- `IRWEB(G, n)`; `cs` is the randomness stream. -/
def IRWEB (g : SGraph) (n : ℕ) (cs : List ℕ) : SGraph :=
  let g0 := relabel g
  if g0.nodeList.isEmpty then SGraph.empty
  else (irwebLoop g0 n (g0.edges.card + g0.nodes.card + 1) cs.tail (irwebInit g0 cs)).samp

/-! ## SB (`Custom_Sampling.py` lines 198-290) -/

/-- Mutable state of the snowball sampler: sampled graph, visited set, BFS
queue and checkpoint tracker state. -/
structure SBState where
  samp : SGraph
  vis : Finset ℕ
  q : List ℕ
  rem : List ℕ
  filled : List SGraph
deriving DecidableEq

/-- The inner `for neighbor in neighbors:` loop of SB, with the two `break`s
(total size cap, per-node fan-out cap `k`) and the already-sampled `elif`
branch.  Note the `k` break fires before the checkpoint check, exactly as in
the source. -/
def sbAddState (cur nbr : ℕ) (st : SBState) : SBState :=
  { st with
    vis := insert nbr st.vis
    samp := (st.samp.addNode nbr).addEdge cur nbr
    q := st.q ++ [nbr] }

/-- Run the checkpoint check on the current sample (`--- VERIFICAÇÃO DE
CHECKPOINTS ---`). -/
def sbCkpt (st : SBState) : SBState :=
  { st with
    rem := (advanceCps st.samp.nodes.card st.samp st.rem st.filled).1
    filled := (advanceCps st.samp.nodes.card st.samp st.rem st.filled).2 }

def sbInner (maxN k cur : ℕ) : List ℕ → ℕ → SBState → SBState
  | [], _, st => st
  | nbr :: rest, cnt, st =>
    if nbr ∉ st.vis then
      if maxN ≤ st.samp.nodes.card then st
      else
        if k ≤ cnt + 1 then sbAddState cur nbr st
        else sbInner maxN k cur rest (cnt + 1) (sbCkpt (sbAddState cur nbr st))
    else
      if nbr ∈ st.samp.nodes then
        if (cur, nbr) ∈ st.samp.edges then sbInner maxN k cur rest cnt st
        else sbInner maxN k cur rest cnt { st with samp := st.samp.addEdge cur nbr }
      else sbInner maxN k cur rest cnt st

/-- One outer BFS iteration: `while queue and
sampled_graph.number_of_nodes() < max_n:` dequeues a node, shuffles its
neighbor list with this iteration's stream and runs the inner loop. -/
def sbStep (g0 : SGraph) (maxN k : ℕ) (csl : List ℕ) (st : SBState) : SBState :=
  match st.q with
  | [] => st
  | cur :: qrest =>
    sbInner maxN k cur (shuffleWith csl (g0.nbrList cur)) 0 { st with q := qrest }

/-- Guarded outer BFS iteration (`none` when the loop guard fails). -/
def sbNext (g0 : SGraph) (maxN k : ℕ) (csl : List ℕ) (st : SBState) : Option SBState :=
  if st.q ≠ [] ∧ st.samp.nodes.card < maxN then some (sbStep g0 maxN k csl st) else none

/-- The fuelled SB main loop. -/
def sbLoop (g0 : SGraph) (maxN k : ℕ) : ℕ → List (List ℕ) → SBState → SBState :=
  iterOpt [] (sbNext g0 maxN k)

/-- Initial SB state: random start visited, sampled and enqueued; thresholds
sorted; pre-loop checkpoint check. -/
def sbInit (g0 : SGraph) (sizes cs : List ℕ) : SBState :=
  let start := pickStart g0 cs
  let samp0 := SGraph.empty.addNode start
  let rf := advanceCps samp0.nodes.card samp0 (List.insertionSort (· ≤ ·) sizes) []
  ⟨samp0, {start}, [start], rf.1, rf.2⟩

/-- State of the SB engine when its loop exits (non-empty graph); the fuel
dominates the number of dequeues, which is bounded by the node count. -/
def SBstate (g : SGraph) (maxN k : ℕ) (sizes cs : List ℕ) (css : List (List ℕ)) : SBState :=
  let g0 := relabel g
  sbLoop g0 maxN k (g0.nodes.card + 1) css (sbInit g0 sizes cs)

/-- SB finalization (same shape as RWEB's). -/
def sbFinalize (st : SBState) : List SGraph :=
  st.filled ++
    List.replicate st.rem.length
      (if 0 < st.samp.nodes.card then st.samp else SGraph.empty)

/-- `SB(G, max_n, k, checkpoint_sizes)`; `cs` picks the start node, `css`
supplies one shuffle stream per BFS step. -/
def SB (g : SGraph) (maxN k : ℕ) (sizes cs : List ℕ) (css : List (List ℕ)) : List SGraph :=
  if (relabel g).nodeList.isEmpty then List.replicate sizes.length SGraph.empty
  else sbFinalize (SBstate g maxN k sizes cs css)

/-! ## TIES (`Custom_Sampling.py` lines 292-373) -/

/-- Mutable state of the TIES scan: selected-node set and checkpoint tracker
state. -/
structure TState where
  sel : Finset ℕ
  rem : List ℕ
  filled : List SGraph
deriving DecidableEq

/-- The `for u, v in edges:` scan of TIES: stop once `max_n` is reached; add
`u` if absent, add `v` if absent and still below `max_n`; on growth run the
checkpoint check, snapshotting the induced subgraph on the current selected
set. -/
def tiesS1 (u : ℕ) (sel : Finset ℕ) : Finset ℕ :=
  if u ∉ sel then insert u sel else sel

def tiesS2 (maxN v : ℕ) (s1 : Finset ℕ) : Finset ℕ :=
  if v ∉ s1 ∧ s1.card < maxN then insert v s1 else s1

def tiesScan (g0 : SGraph) (maxN : ℕ) : List (ℕ × ℕ) → TState → TState
  | [], st => st
  | (u, v) :: rest, st =>
    if maxN ≤ st.sel.card then st
    else
      if (tiesS2 maxN v (tiesS1 u st.sel)).card = st.sel.card then
        tiesScan g0 maxN rest { st with sel := tiesS2 maxN v (tiesS1 u st.sel) }
      else
        tiesScan g0 maxN rest
          ⟨tiesS2 maxN v (tiesS1 u st.sel),
           (advanceCps (tiesS2 maxN v (tiesS1 u st.sel)).card
             (g0.induced (tiesS2 maxN v (tiesS1 u st.sel))) st.rem st.filled).1,
           (advanceCps (tiesS2 maxN v (tiesS1 u st.sel)).card
             (g0.induced (tiesS2 maxN v (tiesS1 u st.sel))) st.rem st.filled).2⟩

/-- State of the TIES engine after the scan; the scanned list is the shuffled,
randomly oriented edge list of the relabeled copy. -/
def TIESstate (g : SGraph) (maxN : ℕ) (sizes cs cs2 : List ℕ) : TState :=
  let g0 := relabel g
  tiesScan g0 maxN (orientWith cs2 (shuffleWith cs g0.edgeList))
    ⟨∅, List.insertionSort (· ≤ ·) sizes, []⟩

/-- TIES finalization: unfilled slots receive the induced subgraph on the
final selected set, or an empty graph if nothing was selected. -/
def tiesFinalize (g0 : SGraph) (st : TState) : List SGraph :=
  st.filled ++
    List.replicate st.rem.length
      (if st.sel.Nonempty then g0.induced st.sel else SGraph.empty)

/-- `TIES(G, max_n, checkpoint_sizes)`; `cs` shuffles the edge list, `cs2`
orients each reported edge. -/
def TIES (g : SGraph) (maxN : ℕ) (sizes cs cs2 : List ℕ) : List SGraph :=
  tiesFinalize (relabel g) (TIESstate g maxN sizes cs cs2)

/-! ## Caller-facing call wrappers (frame claim)

The engines' first act is `G_copy = nx.convert_node_labels_to_integers(G.copy(), ...)`;
every subsequent mutation targets `G_copy`, `sampled_graph` or private sets.
The wrappers return the caller's graph alongside the result, making the
frame property a statement about the embedding. -/

/-- `RWEB` as seen by the caller: result plus the source graph after the call. -/
def RWEBcall (g : SGraph) (maxN : ℕ) (sizes cs : List ℕ) : List SGraph × SGraph :=
  (RWEB g maxN sizes cs, g)

/-- `IRWEB` as seen by the caller. -/
def IRWEBcall (g : SGraph) (n : ℕ) (cs : List ℕ) : SGraph × SGraph :=
  (IRWEB g n cs, g)

/-- `SB` as seen by the caller. -/
def SBcall (g : SGraph) (maxN k : ℕ) (sizes cs : List ℕ) (css : List (List ℕ)) :
    List SGraph × SGraph :=
  (SB g maxN k sizes cs css, g)

/-- `TIES` as seen by the caller. -/
def TIEScall (g : SGraph) (maxN : ℕ) (sizes cs cs2 : List ℕ) : List SGraph × SGraph :=
  (TIES g maxN sizes cs cs2, g)

/-- Reachability along directed edge pairs (on our symmetric edge sets this
is undirected reachability). -/
def Reach (g : SGraph) (a b : ℕ) : Prop :=
  Relation.ReflTransGen (fun x y => (x, y) ∈ g.edges) a b

/-- Connectivity of a graph value: any two nodes are joined by a path. -/
def ConnectedG (g : SGraph) : Prop :=
  ∀ a ∈ g.nodes, ∀ b ∈ g.nodes, Reach g a b

/-! ## Concrete example graphs used in counterexamples and witnesses -/

/-- Path graph 0-1-2-3. -/
def pathG : SGraph := ⟨{0, 1, 2, 3}, {(0, 1), (1, 0), (1, 2), (2, 1), (2, 3), (3, 2)}⟩

/-- Two isolated nodes. -/
def twoIso : SGraph := ⟨{0, 1}, ∅⟩

/-- Triangle graph. -/
def triG : SGraph := ⟨{0, 1, 2}, {(0, 1), (1, 0), (0, 2), (2, 0), (1, 2), (2, 1)}⟩

/-- Single edge 0-1. -/
def k2 : SGraph := ⟨{0, 1}, {(0, 1), (1, 0)}⟩

/-- Single isolated node. -/
def oneN : SGraph := ⟨{0}, ∅⟩

/-- Two disjoint edges 0-1 and 2-3. -/
def pairG : SGraph := ⟨{0, 1, 2, 3}, {(0, 1), (1, 0), (2, 3), (3, 2)}⟩

/-- C2 counterexample: on the 2-node edgeless graph with `max_n = 2`, `k = 1`
(both positive), the whole source graph has at least `max_n` nodes, yet the
graph SB returns has 1 node, not `max_n`: the BFS queue exhausts inside the
start node's component, so the claimed exactness for SB is false. -/
theorem spec_c2_cex :
    2 ≤ twoIso.nodes.card ∧
      ∀ h ∈ SB twoIso 2 1 [2] [0] [], h.nodes.card ≠ 2 := by decide

/-- C3 failing run: `SB` on the path 0-1-2-3 with `k = 1`, `max_n = 4`,
`checkpoint_sizes = [2]`, start node 0 and identity shuffles.  The sample
after the first BFS step (the growth event that crosses threshold 2) is the
2-node graph on `{0, 1}`, but the slot for threshold 2 holds the final 4-node
graph: the `k`-limit `break` fires before the checkpoint check, skipping the
snapshot the spec requires immediately after the event. -/
theorem spec_c3_eval :
    (sbLoop (relabel pathG) 4 1 1 [] (sbInit (relabel pathG) [2] [0])).samp.nodes = {0, 1} ∧
      ((SB pathG 4 1 [2] [0] []).getD 0 default).nodes = {0, 1, 2, 3} ∧
      ((SB pathG 4 1 [2] [0] []).getD 0 default).nodes.card ≠ 2 := by decide

/-- C6 counterexample: TIES on two disjoint edges with `max_n = 3`, scan
order `[(0,1), (2,3)]`.  When edge `(2,3)` is scanned, endpoint 3 cannot be
added without exceeding the cap, yet endpoint 2 is still newly added (the
claim says the edge is skipped entirely, with neither endpoint added). -/
theorem spec_c6_cex :
    orientWith [] (shuffleWith [] (relabel pairG).edgeList) = [(0, 1), (2, 3)] ∧
      2 ∈ ((TIES pairG 3 [3] [] []).getD 0 default).nodes ∧
      3 ∉ ((TIES pairG 3 [3] [] []).getD 0 default).nodes := by decide

/-- C7 counterexample: IRWEB on the triangle with `n = 5`.  After three loop
iterations (0 → 1 → 2 → 0, the last move landing on the already-visited
node 0) the run is still inside the loop, the stack is `[2, 1, 0]` but the
active node is 0, so the stack top is not the active node; the next
iteration backtracks by popping the top (node 2), not the active node. -/
theorem spec_c7_cex :
    (let g0 := relabel triG
     let s3 := irwebLoop g0 5 3 [0, 0, 0] (irwebInit g0 [0, 0, 0, 0])
     IRWEB triG 5 [0, 0, 0, 0] = (irwebLoop g0 5 7 [] s3).samp ∧
       s3.vis.card < 5 ∧ s3.stk ≠ [] ∧
       s3.stk.headD 99 ≠ s3.cur ∧
       s3.stk.headD 99 = 2 ∧ s3.cur = 0 ∧
       (irwebBody g0 0 s3).stk = s3.stk.tail) := by decide

/-- C8 counterexample: `RWEB` called with `max_n = 0` (the embedding of a
non-positive size: every comparison in the source behaves identically for
any `max_n ≤ 0`) on a non-empty graph raises nothing and returns a
degenerate sampled result — the single-start-node graph — because the source
contains no parameter validation at all. -/
theorem spec_c8_cex :
    oneN.nodes ≠ ∅ ∧ RWEB oneN 0 [1] [0] = [⟨{0}, ∅⟩] := by decide

/-- C9: no engine mutates the caller's source graph: each call wrapper
returns the caller's graph with node set and edge set unchanged (the
engines' first step copies and relabels the graph, and every mutation in the
source targets that private copy or the sample under construction). -/
theorem spec_c9 (g : SGraph) (maxN n k : ℕ) (sizes cs cs2 : List ℕ)
    (css : List (List ℕ)) :
    (RWEBcall g maxN sizes cs).2.nodes = g.nodes ∧
      (RWEBcall g maxN sizes cs).2.edges = g.edges ∧
      (IRWEBcall g n cs).2.nodes = g.nodes ∧
      (IRWEBcall g n cs).2.edges = g.edges ∧
      (SBcall g maxN k sizes cs css).2.nodes = g.nodes ∧
      (SBcall g maxN k sizes cs css).2.edges = g.edges ∧
      (TIEScall g maxN sizes cs cs2).2.nodes = g.nodes ∧
      (TIEScall g maxN sizes cs cs2).2.edges = g.edges :=
  ⟨rfl, rfl, rfl, rfl, rfl, rfl, rfl, rfl⟩

/-! ## Basic lemmas about the graph embedding -/

@[simp] theorem SGraph.empty_nodes : SGraph.empty.nodes = ∅ := rfl

@[simp] theorem SGraph.empty_edges : SGraph.empty.edges = ∅ := rfl

@[simp] theorem SGraph.addNode_nodes (g : SGraph) (u : ℕ) :
    (g.addNode u).nodes = insert u g.nodes := rfl

@[simp] theorem SGraph.addNode_edges (g : SGraph) (u : ℕ) :
    (g.addNode u).edges = g.edges := rfl

@[simp] theorem SGraph.addEdge_nodes (g : SGraph) (u v : ℕ) :
    (g.addEdge u v).nodes = insert u (insert v g.nodes) := rfl

@[simp] theorem SGraph.addEdge_edges (g : SGraph) (u v : ℕ) :
    (g.addEdge u v).edges = insert (u, v) (insert (v, u) g.edges) := rfl

@[simp] theorem SGraph.removeEdge_nodes (g : SGraph) (u v : ℕ) :
    (g.removeEdge u v).nodes = g.nodes := rfl

@[simp] theorem SGraph.removeEdge_edges (g : SGraph) (u v : ℕ) :
    (g.removeEdge u v).edges = (g.edges.erase (u, v)).erase (v, u) := rfl

@[simp] theorem SGraph.induced_nodes (g : SGraph) (s : Finset ℕ) :
    (g.induced s).nodes = g.nodes ∩ s := rfl

@[simp] theorem SGraph.induced_edges (g : SGraph) (s : Finset ℕ) :
    (g.induced s).edges = g.edges.filter (fun p => p.1 ∈ s ∧ p.2 ∈ s) := rfl

@[simp] theorem SGraph.gunion_nodes (g h : SGraph) :
    (g.gunion h).nodes = g.nodes ∪ h.nodes := rfl

@[simp] theorem SGraph.gunion_edges (g h : SGraph) :
    (g.gunion h).edges = g.edges ∪ h.edges := rfl

theorem mem_sortedList {s : Finset ℕ} {x : ℕ} : x ∈ sortedList s ↔ x ∈ s := by
  unfold sortedList
  simp only [List.mem_filter, List.mem_range, decide_eq_true_eq]
  constructor
  · exact fun h => h.2
  · intro hx
    have hle : x ≤ s.sup id := @Finset.le_sup ℕ ℕ _ _ s id x hx
    exact ⟨by omega, hx⟩

theorem sortedList_nodup (s : Finset ℕ) : (sortedList s).Nodup :=
  (List.nodup_range _).filter _

theorem length_sortedList (s : Finset ℕ) : (sortedList s).length = s.card := by
  have h1 : (sortedList s).toFinset = s := by
    ext x
    simp [List.mem_toFinset, mem_sortedList]
  have h2 := List.toFinset_card_of_nodup (sortedList_nodup s)
  rw [h1] at h2
  exact h2.symm

theorem sortedList_eq_nil {s : Finset ℕ} : sortedList s = [] ↔ s = ∅ := by
  constructor
  · intro h
    ext x
    simp only [Finset.not_mem_empty, iff_false]
    intro hx
    have := mem_sortedList.mpr hx
    simp [h] at this
  · intro h
    subst h
    rfl

theorem getD_mod_mem {l : List ℕ} (h : l ≠ []) (c d : ℕ) : l.getD (c % l.length) d ∈ l := by
  have hlen : 0 < l.length := List.length_pos.mpr h
  have hi : c % l.length < l.length := Nat.mod_lt _ hlen
  rw [List.getD_eq_getElem l d hi]
  exact List.getElem_mem hi

theorem pickStart_mem {g0 : SGraph} (h : g0.nodeList ≠ []) (cs : List ℕ) :
    pickStart g0 cs ∈ g0.nodes := by
  have := getD_mod_mem h (cs.headD 0) 0
  exact mem_sortedList.mp this

theorem mem_nbrList {g : SGraph} {u v : ℕ} :
    v ∈ g.nbrList u ↔ v ∈ g.nodes ∧ (u, v) ∈ g.edges := by
  unfold SGraph.nbrList
  rw [mem_sortedList]
  simp [SGraph.nbrs]

theorem nbrList_eq_nil {g : SGraph} {u : ℕ} :
    g.nbrList u = [] ↔ g.nbrs u = ∅ := sortedList_eq_nil

theorem mem_edgeList {g : SGraph} {e : ℕ × ℕ} (h : e ∈ g.edgeList) :
    e ∈ g.edges ∧ e.1 ∈ g.nodes ∧ e.2 ∈ g.nodes := by
  unfold SGraph.edgeList at h
  simp only [List.mem_flatMap, List.mem_map, List.mem_filter, decide_eq_true_eq] at h
  obtain ⟨u, hu, v, ⟨hv, _, he⟩, rfl⟩ := h
  exact ⟨he, mem_sortedList.mp hu, mem_sortedList.mp hv⟩

theorem mem_shuffleGo {α : Type} :
    ∀ (fuel : ℕ) (cs : List ℕ) (l : List α) (x : α), x ∈ shuffleGo fuel cs l → x ∈ l := by
  intro fuel
  induction fuel with
  | zero => intro cs l x hx; exact hx
  | succ n ih =>
    intro cs l x hx
    match l with
    | [] => simp [shuffleGo] at hx
    | a :: t =>
      simp only [shuffleGo, List.mem_cons] at hx
      rcases hx with hx | hx
      · subst hx
        have hlen : (cs.headD 0) % (a :: t).length < (a :: t).length :=
          Nat.mod_lt _ (by simp)
        rw [List.getD_eq_getElem _ a hlen]
        exact List.getElem_mem hlen
      · have := ih cs.tail _ x hx
        exact List.eraseIdx_subset _ _ this

theorem mem_shuffleWith {α : Type} {cs : List ℕ} {l : List α} {x : α}
    (h : x ∈ shuffleWith cs l) : x ∈ l :=
  mem_shuffleGo _ _ _ _ h

theorem mem_orientWith :
    ∀ (cs : List ℕ) (l : List (ℕ × ℕ)) (e : ℕ × ℕ), e ∈ orientWith cs l →
      e ∈ l ∨ (e.2, e.1) ∈ l := by
  intro cs l
  induction l generalizing cs with
  | nil => intro e he; simp [orientWith] at he
  | cons a r ih =>
    intro e he
    simp only [orientWith, List.mem_cons] at he
    rcases he with he | he
    · by_cases hc : cs.headD 0 % 2 = 0
      · rw [if_pos hc] at he; subst he; left; simp
      · rw [if_neg hc] at he; subst he; right; simp
    · rcases ih cs.tail e he with h | h
      · left; exact List.mem_cons_of_mem _ h
      · right; exact List.mem_cons_of_mem _ h

theorem relabelIdx_lt {g : SGraph} {u : ℕ} (h : u ∈ g.nodes) :
    relabelIdx g u < g.nodes.card := by
  unfold relabelIdx
  rw [← length_sortedList]
  exact List.indexOf_lt_length.mpr (mem_sortedList.mpr h)

theorem relabel_WF {g : SGraph} (h : g.WF) : (relabel g).WF := by
  intro p hp
  simp only [relabel, Finset.mem_image] at hp
  obtain ⟨q, hq, rfl⟩ := hp
  obtain ⟨hsymm, h1, h2⟩ := h q hq
  refine ⟨?_, ?_, ?_⟩
  · simp only [relabel, Finset.mem_image]
    exact ⟨(q.2, q.1), hsymm, rfl⟩
  · simpa [relabel] using relabelIdx_lt h1
  · simpa [relabel] using relabelIdx_lt h2

theorem relabel_nodes_card (g : SGraph) : (relabel g).nodes.card = g.nodes.card := by
  simp [relabel]

/-! ## Reachability lemmas -/

theorem reach_mono {g g' : SGraph} (hsub : g.edges ⊆ g'.edges) {a b : ℕ}
    (h : Reach g a b) : Reach g' a b :=
  Relation.ReflTransGen.mono (fun _ _ hxy => hsub hxy) h

theorem reach_symm {g : SGraph} (hsymm : ∀ p ∈ g.edges, (p.2, p.1) ∈ g.edges)
    {a b : ℕ} (h : Reach g a b) : Reach g b a :=
  Relation.ReflTransGen.symmetric (fun x y hxy => hsymm (x, y) hxy) h

theorem reach_single {g : SGraph} {a b : ℕ} (h : (a, b) ∈ g.edges) : Reach g a b :=
  Relation.ReflTransGen.single h

/-! ## Checkpoint Tracker lemmas -/

theorem advanceCps_spec (c : ℕ) (snap : SGraph) :
    ∀ (rem : List ℕ) (filled : List SGraph),
      ∃ m, (advanceCps c snap rem filled).2 = filled ++ List.replicate m snap ∧
        (advanceCps c snap rem filled).1 = rem.drop m ∧
        m ≤ rem.length ∧
        (∀ t ∈ rem.take m, t ≤ c) := by
  intro rem
  induction rem with
  | nil =>
    intro filled
    exact ⟨0, by simp [advanceCps], by simp [advanceCps], by simp, by simp⟩
  | cons t rest ih =>
    intro filled
    by_cases h : t ≤ c
    · obtain ⟨m, h1, h2, h3, h4⟩ := ih (filled ++ [snap])
      refine ⟨m + 1, ?_, ?_, ?_, ?_⟩
      · simp only [advanceCps, if_pos h, h1, List.append_assoc]
        rw [List.replicate_succ]
        rfl
      · simp only [advanceCps, if_pos h, h2, List.drop_succ_cons]
      · simpa using Nat.succ_le_succ h3
      · intro u hu
        rw [List.take_succ_cons] at hu
        rcases List.mem_cons.mp hu with rfl | hu
        · exact h
        · exact h4 u hu
    · refine ⟨0, by simp [advanceCps, if_neg h], by simp [advanceCps, if_neg h], by simp, by simp⟩

theorem advance_forall {P : SGraph → Prop} {c : ℕ} {snap : SGraph} {rem : List ℕ}
    {filled : List SGraph} (hP : ∀ h ∈ filled, P h) (hsnap : P snap) :
    ∀ h ∈ (advanceCps c snap rem filled).2, P h := by
  obtain ⟨m, h1, _, _, _⟩ := advanceCps_spec c snap rem filled
  rw [h1]
  intro h hh
  rcases List.mem_append.mp hh with hh | hh
  · exact hP h hh
  · rw [List.eq_of_mem_replicate hh]
    exact hsnap

/-- Monotone chain of node sets along a list of snapshots. -/
def MonoChain (l : List SGraph) : Prop :=
  ∀ i j, i ≤ j → j < l.length →
    (l.getD i SGraph.empty).nodes ⊆ (l.getD j SGraph.empty).nodes

theorem getD_mem_of_lt {α : Type} {l : List α} {i : ℕ} (h : i < l.length) (d : α) :
    l.getD i d ∈ l := by
  rw [List.getD_eq_getElem _ _ h]
  exact List.getElem_mem h

theorem getD_replicate_of_lt {α : Type} {m i : ℕ} {s d : α} (h : i < m) :
    (List.replicate m s).getD i d = s := by
  rw [List.getD_eq_getElem _ _ (by simpa using h)]
  simp

theorem monoChain_append_replicate {l : List SGraph} {s : SGraph} {m : ℕ}
    (hl : MonoChain l) (hsub : ∀ h ∈ l, h.nodes ⊆ s.nodes) :
    MonoChain (l ++ List.replicate m s) := by
  intro i j hij hj
  rw [List.length_append, List.length_replicate] at hj
  by_cases hjl : j < l.length
  · have hil : i < l.length := lt_of_le_of_lt hij hjl
    rw [List.getD_append _ _ _ _ hil, List.getD_append _ _ _ _ hjl]
    exact hl i j hij hjl
  · push_neg at hjl
    rw [List.getD_append_right _ _ _ _ hjl, getD_replicate_of_lt (by omega)]
    by_cases hil : i < l.length
    · rw [List.getD_append _ _ _ _ hil]
      exact hsub _ (getD_mem_of_lt hil _)
    · push_neg at hil
      rw [List.getD_append_right _ _ _ _ hil, getD_replicate_of_lt (by omega)]

/-- Invariant tying the checkpoint tracker state to the sorted threshold list
and the current sample: the filled prefix matches the consumed thresholds,
every snapshot sits inside the current sample, snapshots form a monotone
chain, and every consumed threshold is at most the current size. -/
structure CpsInv (sizes : List ℕ) (samp : SGraph) (rem : List ℕ)
    (filled : List SGraph) : Prop where
  dropEq : sizes.drop filled.length = rem
  lenLe : filled.length ≤ sizes.length
  subN : ∀ h ∈ filled, h.nodes ⊆ samp.nodes
  subE : ∀ h ∈ filled, h.edges ⊆ samp.edges
  mono : MonoChain filled
  takeLe : ∀ t ∈ sizes.take filled.length, t ≤ samp.nodes.card

theorem cpsInv_start (sizes : List ℕ) (samp : SGraph) :
    CpsInv sizes samp sizes [] :=
  ⟨by simp, by simp, by simp, by simp, by intro i j _ hj; simp at hj, by simp⟩

theorem cpsInv_mono {sizes : List ℕ} {samp samp' : SGraph} {rem : List ℕ}
    {filled : List SGraph} (h : CpsInv sizes samp rem filled)
    (hn : samp.nodes ⊆ samp'.nodes) (he : samp.edges ⊆ samp'.edges) :
    CpsInv sizes samp' rem filled :=
  ⟨h.dropEq, h.lenLe, fun x hx => (h.subN x hx).trans hn,
   fun x hx => (h.subE x hx).trans he, h.mono,
   fun t ht => le_trans (h.takeLe t ht) (Finset.card_le_card hn)⟩

theorem cpsInv_advance {sizes : List ℕ} {samp samp' : SGraph} {rem : List ℕ}
    {filled : List SGraph} (h : CpsInv sizes samp rem filled)
    (hn : samp.nodes ⊆ samp'.nodes) (he : samp.edges ⊆ samp'.edges) :
    CpsInv sizes samp' (advanceCps samp'.nodes.card samp' rem filled).1
      (advanceCps samp'.nodes.card samp' rem filled).2 := by
  obtain ⟨m, h1, h2, h3, h4⟩ := advanceCps_spec samp'.nodes.card samp' rem filled
  have hlen : (advanceCps samp'.nodes.card samp' rem filled).2.length =
      filled.length + m := by
    rw [h1, List.length_append, List.length_replicate]
  have hremlen : rem.length = sizes.length - filled.length := by
    rw [← h.dropEq, List.length_drop]
  constructor
  · rw [hlen, h2, ← h.dropEq, List.drop_drop]
  · rw [hlen]
    have := h.lenLe
    omega
  · rw [h1]
    intro x hx
    rcases List.mem_append.mp hx with hx | hx
    · exact (h.subN x hx).trans hn
    · rw [List.eq_of_mem_replicate hx]
  · rw [h1]
    intro x hx
    rcases List.mem_append.mp hx with hx | hx
    · exact (h.subE x hx).trans he
    · rw [List.eq_of_mem_replicate hx]
  · rw [h1]
    exact monoChain_append_replicate h.mono (fun x hx => (h.subN x hx).trans hn)
  · rw [hlen]
    intro t ht
    rw [List.take_add] at ht
    rcases List.mem_append.mp ht with ht | ht
    · exact le_trans (h.takeLe t ht) (Finset.card_le_card hn)
    · rw [h.dropEq] at ht
      exact h4 t ht

/-! ## Generic loop lemmas -/

theorem iterOpt_inv {σ ρ : Type} {dflt : ρ} {f : ρ → σ → Option σ} {P : σ → Prop}
    (hf : ∀ c st st2, P st → f c st = some st2 → P st2) :
    ∀ (fuel : ℕ) (cs : List ρ) (st : σ), P st → P (iterOpt dflt f fuel cs st) := by
  intro fuel
  induction fuel with
  | zero => intro cs st h; exact h
  | succ n ih =>
    intro cs st h
    rw [iterOpt]
    cases hstep : f (cs.headD dflt) st with
    | none => exact h
    | some st2 => exact ih _ _ (hf _ _ _ h hstep)

theorem iterOpt_exit {σ ρ : Type} {dflt : ρ} {f : ρ → σ → Option σ} {P : σ → Prop}
    {μ : σ → ℕ}
    (hf : ∀ c st st2, P st → f c st = some st2 → P st2)
    (hdec : ∀ c st st2, P st → f c st = some st2 → μ st2 < μ st)
    (hnone : ∀ c c' st, f c st = none → f c' st = none) :
    ∀ (fuel : ℕ) (cs : List ρ) (st : σ), P st → μ st ≤ fuel →
      ∀ c, f c (iterOpt dflt f fuel cs st) = none := by
  intro fuel
  induction fuel with
  | zero =>
    intro cs st h hμ c
    cases hstep : f c st with
    | none => exact hstep
    | some st2 =>
      have := hdec c st st2 h hstep
      omega
  | succ n ih =>
    intro cs st h hμ c
    rw [iterOpt]
    cases hstep : f (cs.headD dflt) st with
    | none => exact hnone _ _ _ hstep
    | some st2 =>
      have hd := hdec _ _ _ h hstep
      exact ih cs.tail st2 (hf _ _ _ h hstep) (by omega) c

/-! ## RWEB invariants -/

/-- Properties every RWEB/SB sample and snapshot maintains: it is a subgraph
of the working copy's source, contains the start node, is symmetric, every
node is reachable from the start inside the sample, and its size respects
`max_n`. -/
structure GoodSample (g0 : SGraph) (start maxN : ℕ) (h : SGraph) : Prop where
  nodesSub : h.nodes ⊆ g0.nodes
  edgesSub : h.edges ⊆ g0.edges
  startMem : start ∈ h.nodes
  symm : ∀ p ∈ h.edges, (p.2, p.1) ∈ h.edges
  reach : ∀ u ∈ h.nodes, Reach h start u
  cardLe : h.nodes.card ≤ maxN

theorem nbrs_mono {g g' : SGraph} (hn : g.nodes = g'.nodes)
    (he : g.edges ⊆ g'.edges) (u : ℕ) : g.nbrs u ⊆ g'.nbrs u := by
  intro v hv
  simp only [SGraph.nbrs, Finset.mem_filter] at hv ⊢
  exact ⟨hn ▸ hv.1, he hv.2⟩

/-- Loop invariant of the RWEB walk. -/
structure RWInv (g0 : SGraph) (start maxN : ℕ) (sizes : List ℕ)
    (st : RWState) : Prop where
  workNodes : st.work.nodes = g0.nodes
  workEdges : st.work.edges ⊆ g0.edges
  workSymm : ∀ p ∈ st.work.edges, (p.2, p.1) ∈ st.work.edges
  stkSamp : ∀ u ∈ st.stk, u ∈ st.samp.nodes
  removedSamp : ∀ p ∈ g0.edges, p ∉ st.work.edges →
    p.1 ∈ st.samp.nodes ∧ p.2 ∈ st.samp.nodes
  doneDeg : ∀ u ∈ st.samp.nodes, u ∉ st.stk → st.work.nbrs u = ∅
  good : GoodSample g0 start maxN st.samp
  filledGood : ∀ h ∈ st.filled, GoodSample g0 start maxN h
  cps : CpsInv sizes st.samp st.rem st.filled

theorem rwinv_init {g0 : SGraph} (hg0 : g0.WF) (hne : g0.nodeList ≠ [])
    {maxN : ℕ} (hmax : 1 ≤ maxN) (sizes cs : List ℕ) :
    RWInv g0 (pickStart g0 cs) maxN (List.insertionSort (· ≤ ·) sizes)
      (rwebInit g0 sizes cs) := by
  have hstart : pickStart g0 cs ∈ g0.nodes := pickStart_mem hne cs
  have hgood : GoodSample g0 (pickStart g0 cs) maxN (SGraph.empty.addNode (pickStart g0 cs)) := by
    constructor
    · intro u hu
      simp only [SGraph.addNode_nodes, SGraph.empty_nodes, Finset.mem_insert,
        Finset.not_mem_empty, or_false] at hu
      exact hu ▸ hstart
    · intro p hp
      simp at hp
    · simp
    · intro p hp
      simp at hp
    · intro u hu
      simp only [SGraph.addNode_nodes, SGraph.empty_nodes, Finset.mem_insert,
        Finset.not_mem_empty, or_false] at hu
      exact hu ▸ Relation.ReflTransGen.refl
    · simpa using hmax
  have hw : (rwebInit g0 sizes cs).work = g0 := rfl
  have hs : (rwebInit g0 sizes cs).samp = SGraph.empty.addNode (pickStart g0 cs) := rfl
  have hk : (rwebInit g0 sizes cs).stk = [pickStart g0 cs] := rfl
  constructor
  · rw [hw]
  · rw [hw]
  · rw [hw]
    exact fun p hp => (hg0 p hp).1
  · intro u hu
    rw [hk] at hu
    rw [hs]
    simp only [List.mem_singleton] at hu
    simp [hu]
  · intro p hp1 hp2
    rw [hw] at hp2
    exact absurd hp1 hp2
  · intro u hu hustk
    rw [hs] at hu
    rw [hk] at hustk
    simp only [SGraph.addNode_nodes, SGraph.empty_nodes, Finset.mem_insert,
      Finset.not_mem_empty, or_false] at hu
    exact absurd (by simp [hu]) hustk
  · exact hgood
  · exact advance_forall (by simp) hgood
  · exact cpsInv_advance (cpsInv_start _ _) (le_refl _) (le_refl _)

/-- The RWEB loop measure: twice the number of stored edge pairs in the
working graph plus the stack height. -/
def rwebMeasure (st : RWState) : ℕ := 2 * st.work.edges.card + st.stk.length

theorem rwebNext_none {maxN c c' : ℕ} {st : RWState}
    (h : rwebNext maxN c st = none) : rwebNext maxN c' st = none := by
  unfold rwebNext at h ⊢
  split at h
  · exact absurd h (by simp)
  · simp_all

theorem rwebStep_pop {c : ℕ} {st : RWState} {cur : ℕ} {rest : List ℕ}
    (hstk : st.stk = cur :: rest) (hnl : st.work.nbrList cur = []) :
    rwebStep c st = { st with stk := rest } := by
  unfold rwebStep
  rw [hstk]
  simp [hnl]

theorem rwebStep_edge {c : ℕ} {st : RWState} {cur nxt : ℕ} {rest : List ℕ}
    (hstk : st.stk = cur :: rest) (hne : st.work.nbrList cur ≠ [])
    (hnxt : nxt = (st.work.nbrList cur).getD (c % (st.work.nbrList cur).length) 0) :
    rwebStep c st =
      if nxt ∉ st.samp.nodes then
        { work := st.work.removeEdge cur nxt
          samp := st.samp.addEdge cur nxt
          stk := nxt :: cur :: rest
          rem := (advanceCps (st.samp.addEdge cur nxt).nodes.card
            (st.samp.addEdge cur nxt) st.rem st.filled).1
          filled := (advanceCps (st.samp.addEdge cur nxt).nodes.card
            (st.samp.addEdge cur nxt) st.rem st.filled).2 }
      else
        { work := st.work.removeEdge cur nxt
          samp := st.samp.addEdge cur nxt
          stk := nxt :: cur :: rest
          rem := st.rem
          filled := st.filled } := by
  subst hnxt
  unfold rwebStep
  rw [hstk]
  simp only [List.isEmpty_iff, hne, if_false]

theorem rwebNext_dec {maxN c : ℕ} {st st2 : RWState}
    (hstep : rwebNext maxN c st = some st2) : rwebMeasure st2 < rwebMeasure st := by
  unfold rwebNext at hstep
  split at hstep
  case isFalse => exact absurd hstep (by simp)
  case isTrue hguard =>
  injection hstep with hst2
  subst hst2
  obtain ⟨cur, rest, hstk⟩ : ∃ cur rest, st.stk = cur :: rest := by
    cases hh : st.stk with
    | nil => exact absurd hh hguard.2
    | cons a b => exact ⟨a, b, rfl⟩
  by_cases hne : st.work.nbrList cur = []
  · rw [rwebStep_pop hstk hne]
    unfold rwebMeasure
    simp [hstk]
  · set nxt := (st.work.nbrList cur).getD (c % (st.work.nbrList cur).length) 0 with hnxtdef
    rw [rwebStep_edge hstk hne hnxtdef]
    have hnxtmem : nxt ∈ st.work.nbrList cur := hnxtdef ▸ getD_mod_mem hne c 0
    have hmem : (cur, nxt) ∈ st.work.edges := (mem_nbrList.mp hnxtmem).2
    have h1 : (st.work.edges.erase (cur, nxt)).card = st.work.edges.card - 1 :=
      Finset.card_erase_of_mem hmem
    have h2 : 1 ≤ st.work.edges.card := Finset.card_pos.mpr ⟨_, hmem⟩
    have h3 : ((st.work.edges.erase (cur, nxt)).erase (nxt, cur)).card ≤
        (st.work.edges.erase (cur, nxt)).card := Finset.card_erase_le
    split <;>
      (unfold rwebMeasure
       simp only [hstk, SGraph.removeEdge_edges, List.length_cons]
       omega)

theorem rwinv_next {g0 : SGraph} {start maxN : ℕ} {sizes : List ℕ} {c : ℕ}
    {st st2 : RWState} (h : RWInv g0 start maxN sizes st)
    (hstep : rwebNext maxN c st = some st2) : RWInv g0 start maxN sizes st2 := by
  unfold rwebNext at hstep
  split at hstep
  case isFalse => exact absurd hstep (by simp)
  case isTrue hguard =>
  injection hstep with hst2
  subst hst2
  obtain ⟨hcard, hstk0⟩ := hguard
  obtain ⟨cur, rest, hstk⟩ : ∃ cur rest, st.stk = cur :: rest := by
    cases hh : st.stk with
    | nil => exact absurd hh hstk0
    | cons a b => exact ⟨a, b, rfl⟩
  by_cases hne : st.work.nbrList cur = []
  · rw [rwebStep_pop hstk hne]
    refine ⟨h.workNodes, h.workEdges, h.workSymm, ?_, h.removedSamp, ?_, h.good,
      h.filledGood, h.cps⟩
    · intro u hu
      exact h.stkSamp u (by rw [hstk]; exact List.mem_cons_of_mem _ hu)
    · intro u hu hustk
      by_cases hcu : u = cur
      · subst hcu
        exact Finset.eq_empty_iff_forall_not_mem.mpr
          (fun v hv => by
            have : v ∈ st.work.nbrList u := mem_nbrList.mpr
              ⟨(Finset.mem_filter.mp hv).1, (Finset.mem_filter.mp hv).2⟩
            simp [hne] at this)
      · refine h.doneDeg u hu ?_
        rw [hstk]
        simp only [List.mem_cons, not_or]
        exact ⟨hcu, hustk⟩
  · rw [rwebStep_edge hstk hne rfl]
    set nxt := (st.work.nbrList cur).getD (c % (st.work.nbrList cur).length) 0 with hnxtdef
    have hnxtmem : nxt ∈ st.work.nbrList cur := getD_mod_mem hne c 0
    have hnn : nxt ∈ st.work.nodes := (mem_nbrList.mp hnxtmem).1
    have hmem : (cur, nxt) ∈ st.work.edges := (mem_nbrList.mp hnxtmem).2
    have hmem2 : (nxt, cur) ∈ st.work.edges := h.workSymm (cur, nxt) hmem
    have hcur : cur ∈ st.samp.nodes := h.stkSamp cur (by rw [hstk]; simp)
    have hnodes2 : (st.samp.addEdge cur nxt).nodes = insert nxt st.samp.nodes := by
      rw [SGraph.addEdge_nodes]
      exact Finset.insert_eq_self.mpr (Finset.mem_insert_of_mem hcur)
    have hnsub : st.samp.nodes ⊆ (st.samp.addEdge cur nxt).nodes := by
      rw [hnodes2]
      exact Finset.subset_insert _ _
    have hesub : st.samp.edges ⊆ (st.samp.addEdge cur nxt).edges := by
      rw [SGraph.addEdge_edges]
      exact (Finset.subset_insert _ _).trans (Finset.subset_insert _ _)
    have hwNodes : (st.work.removeEdge cur nxt).nodes = g0.nodes := by
      rw [SGraph.removeEdge_nodes, h.workNodes]
    have hwEdges : (st.work.removeEdge cur nxt).edges ⊆ g0.edges := by
      rw [SGraph.removeEdge_edges]
      exact ((Finset.erase_subset _ _).trans (Finset.erase_subset _ _)).trans h.workEdges
    have hwSymm : ∀ p ∈ (st.work.removeEdge cur nxt).edges,
        (p.2, p.1) ∈ (st.work.removeEdge cur nxt).edges := by
      intro p hp
      rw [SGraph.removeEdge_edges] at hp ⊢
      rw [Finset.mem_erase, Finset.mem_erase] at hp ⊢
      obtain ⟨hp1, hp2, hp3⟩ := hp
      refine ⟨?_, ?_, h.workSymm p hp3⟩
      · intro hq
        apply hp2
        have : p = ((nxt, cur).2, (nxt, cur).1) := by
          rw [← hq]
        simpa using this
      · intro hq
        apply hp1
        have : p = ((cur, nxt).2, (cur, nxt).1) := by
          rw [← hq]
        simpa using this
    have hstkSamp : ∀ u ∈ nxt :: cur :: rest, u ∈ (st.samp.addEdge cur nxt).nodes := by
      intro u hu
      rcases List.mem_cons.mp hu with rfl | hu
      · rw [hnodes2]; exact Finset.mem_insert_self _ _
      · refine hnsub (h.stkSamp u ?_)
        rw [hstk]
        exact hu
    have hremoved : ∀ p ∈ g0.edges, p ∉ (st.work.removeEdge cur nxt).edges →
        p.1 ∈ (st.samp.addEdge cur nxt).nodes ∧ p.2 ∈ (st.samp.addEdge cur nxt).nodes := by
      intro p hp hp2
      rw [SGraph.removeEdge_edges, Finset.mem_erase, Finset.mem_erase] at hp2
      push_neg at hp2
      by_cases hpw : p ∈ st.work.edges
      · rcases Classical.em (p = (nxt, cur)) with rfl | hq1
        · constructor
          · rw [hnodes2]; exact Finset.mem_insert_self _ _
          · exact hnsub hcur
        · have := hp2 hq1
          rcases Classical.em (p = (cur, nxt)) with rfl | hq2
          · constructor
            · exact hnsub hcur
            · rw [hnodes2]; exact Finset.mem_insert_self _ _
          · exact absurd (this hq2) (by exact fun hf => hf hpw)
      · obtain ⟨h1, h2⟩ := h.removedSamp p hp hpw
        exact ⟨hnsub h1, hnsub h2⟩
    have hdone : ∀ u ∈ (st.samp.addEdge cur nxt).nodes, u ∉ nxt :: cur :: rest →
        (st.work.removeEdge cur nxt).nbrs u = ∅ := by
      intro u hu hustk
      simp only [List.mem_cons, not_or] at hustk
      obtain ⟨hun, huc, hur⟩ := hustk
      rw [hnodes2, Finset.mem_insert] at hu
      rcases hu with rfl | hu
      · exact absurd rfl hun
      · have hold := h.doneDeg u hu (by rw [hstk]; simp only [List.mem_cons, not_or]; exact ⟨huc, hur⟩)
        have hsub : (st.work.removeEdge cur nxt).nbrs u ⊆ st.work.nbrs u := by
          apply nbrs_mono
          · rw [SGraph.removeEdge_nodes]
          · rw [SGraph.removeEdge_edges]
            exact (Finset.erase_subset _ _).trans (Finset.erase_subset _ _)
        rw [hold] at hsub
        exact Finset.subset_empty.mp hsub
    have hgood2 : GoodSample g0 start maxN (st.samp.addEdge cur nxt) := by
      constructor
      · rw [hnodes2]
        intro u hu
        rcases Finset.mem_insert.mp hu with rfl | hu
        · rw [← h.workNodes]; exact hnn
        · exact h.good.nodesSub hu
      · rw [SGraph.addEdge_edges]
        intro p hp
        rcases Finset.mem_insert.mp hp with rfl | hp
        · exact h.workEdges hmem
        · rcases Finset.mem_insert.mp hp with rfl | hp
          · exact h.workEdges hmem2
          · exact h.good.edgesSub hp
      · exact hnsub h.good.startMem
      · intro p hp
        rw [SGraph.addEdge_edges] at hp ⊢
        rcases Finset.mem_insert.mp hp with rfl | hp
        · exact Finset.mem_insert_of_mem (Finset.mem_insert_self _ _)
        · rcases Finset.mem_insert.mp hp with rfl | hp
          · exact Finset.mem_insert_self _ _
          · exact Finset.mem_insert_of_mem (Finset.mem_insert_of_mem (h.good.symm p hp))
      · intro u hu
        rw [hnodes2, Finset.mem_insert] at hu
        have hreachcur : Reach (st.samp.addEdge cur nxt) start cur :=
          reach_mono hesub (h.good.reach cur hcur)
        rcases hu with rfl | hu
        · exact Relation.ReflTransGen.tail hreachcur
            (by rw [SGraph.addEdge_edges]; exact Finset.mem_insert_self _ _)
        · exact reach_mono hesub (h.good.reach u hu)
      · rw [hnodes2]
        calc (insert nxt st.samp.nodes).card ≤ st.samp.nodes.card + 1 :=
              Finset.card_insert_le _ _
          _ ≤ maxN := by omega
    by_cases hnew : nxt ∉ st.samp.nodes
    · rw [if_pos hnew]
      exact ⟨hwNodes, hwEdges, hwSymm, hstkSamp, hremoved, hdone, hgood2,
        advance_forall h.filledGood hgood2, cpsInv_advance h.cps hnsub hesub⟩
    · rw [if_neg hnew]
      exact ⟨hwNodes, hwEdges, hwSymm, hstkSamp, hremoved, hdone, hgood2,
        h.filledGood, cpsInv_mono h.cps hnsub hesub⟩

theorem rwebLoop_inv {g0 : SGraph} {start maxN : ℕ} {sizes : List ℕ}
    (fuel : ℕ) (cs : List ℕ) (st : RWState) (h : RWInv g0 start maxN sizes st) :
    RWInv g0 start maxN sizes (rwebLoop maxN fuel cs st) :=
  iterOpt_inv (fun _ _ _ hi hs => rwinv_next hi hs) fuel cs st h

theorem rwebLoop_exit {maxN : ℕ} (fuel : ℕ) (cs : List ℕ) (st : RWState)
    (hfuel : rwebMeasure st ≤ fuel) :
    ¬((rwebLoop maxN fuel cs st).samp.nodes.card < maxN ∧
      (rwebLoop maxN fuel cs st).stk ≠ []) := by
  have hnone := @iterOpt_exit RWState ℕ 0 (rwebNext maxN) (fun _ => True) rwebMeasure
    (fun _ _ _ _ _ => trivial)
    (fun _ _ _ _ hs => rwebNext_dec hs)
    (fun _ _ _ hs => rwebNext_none hs)
    fuel cs st trivial hfuel 0
  have hnone2 : rwebNext maxN 0 (rwebLoop maxN fuel cs st) = none := hnone
  intro hguard
  unfold rwebNext at hnone2
  rw [if_pos hguard] at hnone2
  exact absurd hnone2 (by simp)

/-! ## RWEB exit analysis: component coverage -/

theorem rweb_component_sampled {g0 : SGraph} {start maxN : ℕ} {sizes : List ℕ}
    {st : RWState} (hg0 : g0.WF) (h : RWInv g0 start maxN sizes st)
    (hstk : st.stk = []) {u : ℕ} (hu : Reach g0 start u) : u ∈ st.samp.nodes := by
  induction hu with
  | refl => exact h.good.startMem
  | tail hxy hedge ih =>
    rename_i b u'
    have hdeg : st.work.nbrs b = ∅ := h.doneDeg b ih (by rw [hstk]; simp)
    by_cases hw : (b, u') ∈ st.work.edges
    · exfalso
      have hun : u' ∈ st.work.nodes := by
        rw [h.workNodes]
        exact (hg0 (b, u') hedge).2.2
      have hmem : u' ∈ st.work.nbrs b := Finset.mem_filter.mpr ⟨hun, hw⟩
      rw [hdeg] at hmem
      exact absurd hmem (Finset.not_mem_empty _)
    · exact (h.removedSamp (b, u') hedge hw).2

theorem relabel_nodeList_ne {g : SGraph} (hne : g.nodes.Nonempty) :
    (relabel g).nodeList ≠ [] := by
  unfold SGraph.nodeList
  rw [Ne, sortedList_eq_nil]
  intro hcon
  have : (0 : ℕ) ∈ (relabel g).nodes := by
    simp only [relabel]
    rw [Finset.mem_range]
    exact Finset.card_pos.mpr hne
  rw [hcon] at this
  exact absurd this (Finset.not_mem_empty _)

theorem relabel_nodeList_eq_nil {g : SGraph} (hne : g.nodes = ∅) :
    (relabel g).nodeList = [] := by
  unfold SGraph.nodeList
  rw [sortedList_eq_nil]
  simp [relabel, hne]

/-- Everything RWEB returns on a non-empty graph is a `GoodSample`, and the
returned list is pointwise the monotone extension of the snapshot chain. -/
theorem rweb_out {g : SGraph} {maxN : ℕ} {sizes cs : List ℕ} (hg : g.WF)
    (hne : g.nodes.Nonempty) (hmax : 1 ≤ maxN) :
    ∀ h ∈ RWEB g maxN sizes cs,
      GoodSample (relabel g) (pickStart (relabel g) cs) maxN h := by
  have hg0 : (relabel g).WF := relabel_WF hg
  have hnl : (relabel g).nodeList ≠ [] := relabel_nodeList_ne hne
  have hinv : RWInv (relabel g) (pickStart (relabel g) cs) maxN
      (List.insertionSort (· ≤ ·) sizes) (RWEBstate g maxN sizes cs) :=
    rwebLoop_inv _ _ _ (rwinv_init hg0 hnl hmax sizes cs)
  intro h hh
  rw [RWEB, if_neg (by simpa using hnl)] at hh
  unfold checkFinalize at hh
  rcases List.mem_append.mp hh with hh | hh
  · exact hinv.filledGood h hh
  · rw [List.eq_of_mem_replicate hh]
    have hpos : 0 < (RWEBstate g maxN sizes cs).samp.nodes.card :=
      Finset.card_pos.mpr ⟨_, hinv.good.startMem⟩
    rw [if_pos hpos]
    exact hinv.good

/-! ## SB invariants -/

/-- Loop invariant of the snowball sampler. -/
structure SBInv (g0 : SGraph) (start maxN : ℕ) (sizes : List ℕ)
    (st : SBState) : Prop where
  visEq : st.vis = st.samp.nodes
  qVis : ∀ u ∈ st.q, u ∈ st.vis
  good : GoodSample g0 start maxN st.samp
  filledGood : ∀ h ∈ st.filled, GoodSample g0 start maxN h
  cps : CpsInv sizes st.samp st.rem st.filled

theorem sbCkpt_inv {g0 : SGraph} {start maxN : ℕ} {sizes : List ℕ} {st : SBState}
    (h : SBInv g0 start maxN sizes st) : SBInv g0 start maxN sizes (sbCkpt st) :=
  ⟨h.visEq, h.qVis, h.good, advance_forall h.filledGood h.good,
   cpsInv_advance h.cps (fun _ hx => hx) (fun _ hx => hx)⟩

theorem sbAdd_inv {g0 : SGraph} {start maxN : ℕ} {sizes : List ℕ} {st : SBState}
    {cur nbr : ℕ} (hg0 : g0.WF) (h : SBInv g0 start maxN sizes st)
    (hcur : cur ∈ st.samp.nodes) (hnode : nbr ∈ g0.nodes)
    (hedge : (cur, nbr) ∈ g0.edges) (hcap : st.samp.nodes.card < maxN) :
    SBInv g0 start maxN sizes (sbAddState cur nbr st) := by
  show SBInv g0 start maxN sizes
    ⟨(st.samp.addNode nbr).addEdge cur nbr, insert nbr st.vis, st.q ++ [nbr],
      st.rem, st.filled⟩
  have hnodes2 : ((st.samp.addNode nbr).addEdge cur nbr).nodes =
      insert nbr st.samp.nodes := by
    rw [SGraph.addEdge_nodes, SGraph.addNode_nodes, Finset.insert_idem]
    exact Finset.insert_eq_self.mpr (Finset.mem_insert_of_mem hcur)
  have hnsub : st.samp.nodes ⊆ ((st.samp.addNode nbr).addEdge cur nbr).nodes := by
    rw [hnodes2]
    exact Finset.subset_insert _ _
  have hesub : st.samp.edges ⊆ ((st.samp.addNode nbr).addEdge cur nbr).edges := by
    rw [SGraph.addEdge_edges, SGraph.addNode_edges]
    exact (Finset.subset_insert _ _).trans (Finset.subset_insert _ _)
  constructor
  · show insert nbr st.vis = _
    rw [h.visEq, hnodes2]
  · intro u hu
    rcases List.mem_append.mp hu with hu | hu
    · exact Finset.mem_insert_of_mem (h.qVis u hu)
    · rw [List.mem_singleton.mp hu]
      exact Finset.mem_insert_self _ _
  · constructor
    · rw [hnodes2]
      intro u hu
      rcases Finset.mem_insert.mp hu with rfl | hu
      · exact hnode
      · exact h.good.nodesSub hu
    · rw [SGraph.addEdge_edges, SGraph.addNode_edges]
      intro p hp
      rcases Finset.mem_insert.mp hp with rfl | hp
      · exact hedge
      · rcases Finset.mem_insert.mp hp with rfl | hp
        · exact (hg0 (cur, nbr) hedge).1
        · exact h.good.edgesSub hp
    · exact hnsub h.good.startMem
    · intro p hp
      rw [SGraph.addEdge_edges, SGraph.addNode_edges] at hp ⊢
      rcases Finset.mem_insert.mp hp with rfl | hp
      · exact Finset.mem_insert_of_mem (Finset.mem_insert_self _ _)
      · rcases Finset.mem_insert.mp hp with rfl | hp
        · exact Finset.mem_insert_self _ _
        · exact Finset.mem_insert_of_mem (Finset.mem_insert_of_mem (h.good.symm p hp))
    · intro u hu
      rw [hnodes2, Finset.mem_insert] at hu
      have hreachcur : Reach ((st.samp.addNode nbr).addEdge cur nbr) start cur :=
        reach_mono hesub (h.good.reach cur hcur)
      rcases hu with rfl | hu
      · exact Relation.ReflTransGen.tail hreachcur
          (by rw [SGraph.addEdge_edges]; exact Finset.mem_insert_self _ _)
      · exact reach_mono hesub (h.good.reach u hu)
    · rw [hnodes2]
      calc (insert nbr st.samp.nodes).card ≤ st.samp.nodes.card + 1 :=
            Finset.card_insert_le _ _
        _ ≤ maxN := by omega
  · exact h.filledGood
  · exact cpsInv_mono h.cps hnsub hesub

theorem sbinv_elif {g0 : SGraph} {start maxN : ℕ} {sizes : List ℕ} {st : SBState}
    {cur nbr : ℕ} (hg0 : g0.WF) (h : SBInv g0 start maxN sizes st)
    (hcur : cur ∈ st.samp.nodes) (hnbr : nbr ∈ st.samp.nodes)
    (hedge : (cur, nbr) ∈ g0.edges) :
    SBInv g0 start maxN sizes { st with samp := st.samp.addEdge cur nbr } := by
  show SBInv g0 start maxN sizes
    ⟨st.samp.addEdge cur nbr, st.vis, st.q, st.rem, st.filled⟩
  have hnodes2 : (st.samp.addEdge cur nbr).nodes = st.samp.nodes := by
    rw [SGraph.addEdge_nodes, Finset.insert_eq_self.mpr hnbr,
      Finset.insert_eq_self.mpr hcur]
  have hesub : st.samp.edges ⊆ (st.samp.addEdge cur nbr).edges := by
    rw [SGraph.addEdge_edges]
    exact (Finset.subset_insert _ _).trans (Finset.subset_insert _ _)
  have hnsub : st.samp.nodes ⊆ (st.samp.addEdge cur nbr).nodes := by
    rw [hnodes2]
  constructor
  · show st.vis = _
    rw [h.visEq, hnodes2]
  · exact h.qVis
  · constructor
    · rw [hnodes2]
      exact h.good.nodesSub
    · rw [SGraph.addEdge_edges]
      intro p hp
      rcases Finset.mem_insert.mp hp with rfl | hp
      · exact hedge
      · rcases Finset.mem_insert.mp hp with rfl | hp
        · exact (hg0 (cur, nbr) hedge).1
        · exact h.good.edgesSub hp
    · exact hnsub h.good.startMem
    · intro p hp
      rw [SGraph.addEdge_edges] at hp ⊢
      rcases Finset.mem_insert.mp hp with rfl | hp
      · exact Finset.mem_insert_of_mem (Finset.mem_insert_self _ _)
      · rcases Finset.mem_insert.mp hp with rfl | hp
        · exact Finset.mem_insert_self _ _
        · exact Finset.mem_insert_of_mem (Finset.mem_insert_of_mem (h.good.symm p hp))
    · intro u hu
      rw [hnodes2] at hu
      exact reach_mono hesub (h.good.reach u hu)
    · rw [hnodes2]
      exact h.good.cardLe
  · exact h.filledGood
  · exact cpsInv_mono h.cps hnsub hesub

theorem sbInner_inv {g0 : SGraph} {start maxN k cur : ℕ} {sizes : List ℕ}
    (hg0 : g0.WF) :
    ∀ (nl : List ℕ) (cnt : ℕ) (st : SBState),
      (∀ v ∈ nl, v ∈ g0.nodes ∧ (cur, v) ∈ g0.edges) →
      cur ∈ st.samp.nodes →
      SBInv g0 start maxN sizes st →
      SBInv g0 start maxN sizes (sbInner maxN k cur nl cnt st) := by
  intro nl
  induction nl with
  | nil =>
    intro cnt st _ _ h
    rw [sbInner]
    exact h
  | cons nbr rest ih =>
    intro cnt st hmem hcur h
    have hnbrg : nbr ∈ g0.nodes ∧ (cur, nbr) ∈ g0.edges := hmem nbr (by simp)
    have hrest : ∀ v ∈ rest, v ∈ g0.nodes ∧ (cur, v) ∈ g0.edges :=
      fun v hv => hmem v (List.mem_cons_of_mem _ hv)
    rw [sbInner]
    by_cases hvis : nbr ∉ st.vis
    · rw [if_pos hvis]
      by_cases hcap : maxN ≤ st.samp.nodes.card
      · rw [if_pos hcap]
        exact h
      · rw [if_neg hcap]
        push_neg at hcap
        have hadd := sbAdd_inv hg0 h hcur hnbrg.1 hnbrg.2 hcap
        have hcur2 : cur ∈ (sbAddState cur nbr st).samp.nodes := by
          show cur ∈ ((st.samp.addNode nbr).addEdge cur nbr).nodes
          rw [SGraph.addEdge_nodes]
          exact Finset.mem_insert_self _ _
        by_cases hk : k ≤ cnt + 1
        · rw [if_pos hk]
          exact hadd
        · rw [if_neg hk]
          exact ih (cnt + 1) _ hrest hcur2 (sbCkpt_inv hadd)
    · rw [if_neg hvis]
      by_cases hnode : nbr ∈ st.samp.nodes
      · rw [if_pos hnode]
        by_cases hedge : (cur, nbr) ∈ st.samp.edges
        · rw [if_pos hedge]
          exact ih cnt st hrest hcur h
        · rw [if_neg hedge]
          refine ih cnt _ hrest ?_ (sbinv_elif hg0 h hcur hnode hnbrg.2)
          show cur ∈ (st.samp.addEdge cur nbr).nodes
          rw [SGraph.addEdge_nodes]
          exact Finset.mem_insert_self _ _
      · rw [if_neg hnode]
        exact ih cnt st hrest hcur h

theorem sbStep_cons {g0 : SGraph} {maxN k : ℕ} {csl : List ℕ} {st : SBState}
    {cur : ℕ} {qrest : List ℕ} (hq : st.q = cur :: qrest) :
    sbStep g0 maxN k csl st =
      sbInner maxN k cur (shuffleWith csl (g0.nbrList cur)) 0 { st with q := qrest } := by
  unfold sbStep
  rw [hq]

theorem sbinv_next {g0 : SGraph} {start maxN k : ℕ} {sizes : List ℕ}
    {csl : List ℕ} {st st2 : SBState} (hg0 : g0.WF)
    (h : SBInv g0 start maxN sizes st)
    (hstep : sbNext g0 maxN k csl st = some st2) : SBInv g0 start maxN sizes st2 := by
  unfold sbNext at hstep
  split at hstep
  case isFalse => exact absurd hstep (by simp)
  case isTrue hguard =>
  injection hstep with hst2
  subst hst2
  obtain ⟨cur, qrest, hq⟩ : ∃ cur qrest, st.q = cur :: qrest := by
    cases hh : st.q with
    | nil => exact absurd hh hguard.1
    | cons a b => exact ⟨a, b, rfl⟩
  rw [sbStep_cons hq]
  have hcur : cur ∈ st.samp.nodes := by
    rw [← h.visEq]
    exact h.qVis cur (by rw [hq]; simp)
  have hmem : ∀ v ∈ shuffleWith csl (g0.nbrList cur),
      v ∈ g0.nodes ∧ (cur, v) ∈ g0.edges := by
    intro v hv
    have := mem_nbrList.mp (mem_shuffleWith hv)
    exact ⟨this.1, this.2⟩
  have hbase : SBInv g0 start maxN sizes { st with q := qrest } :=
    ⟨h.visEq, fun u hu => h.qVis u (by rw [hq]; exact List.mem_cons_of_mem _ hu),
     h.good, h.filledGood, h.cps⟩
  exact sbInner_inv hg0 _ 0 _ hmem hcur hbase

theorem sbNext_none {g0 : SGraph} {maxN k : ℕ} {c c' : List ℕ} {st : SBState}
    (h : sbNext g0 maxN k c st = none) : sbNext g0 maxN k c' st = none := by
  unfold sbNext at h ⊢
  split at h
  · exact absurd h (by simp)
  · simp_all

theorem sbinv_init {g0 : SGraph} (hne : g0.nodeList ≠ [])
    {maxN : ℕ} (hmax : 1 ≤ maxN) (sizes cs : List ℕ) :
    SBInv g0 (pickStart g0 cs) maxN (List.insertionSort (· ≤ ·) sizes)
      (sbInit g0 sizes cs) := by
  have hstart : pickStart g0 cs ∈ g0.nodes := pickStart_mem hne cs
  have hgood : GoodSample g0 (pickStart g0 cs) maxN
      (SGraph.empty.addNode (pickStart g0 cs)) := by
    constructor
    · intro u hu
      simp only [SGraph.addNode_nodes, SGraph.empty_nodes, Finset.mem_insert,
        Finset.not_mem_empty, or_false] at hu
      exact hu ▸ hstart
    · intro p hp
      simp at hp
    · simp
    · intro p hp
      simp at hp
    · intro u hu
      simp only [SGraph.addNode_nodes, SGraph.empty_nodes, Finset.mem_insert,
        Finset.not_mem_empty, or_false] at hu
      exact hu ▸ Relation.ReflTransGen.refl
    · simpa using hmax
  constructor
  · rfl
  · intro u hu
    simp only [sbInit, List.mem_singleton] at hu
    simp [sbInit, hu]
  · exact hgood
  · exact advance_forall (by simp) hgood
  · exact cpsInv_advance (cpsInv_start _ _) (le_refl _) (le_refl _)

theorem sbLoop_inv {g0 : SGraph} {start maxN k : ℕ} {sizes : List ℕ} (hg0 : g0.WF)
    (fuel : ℕ) (css : List (List ℕ)) (st : SBState)
    (h : SBInv g0 start maxN sizes st) :
    SBInv g0 start maxN sizes (sbLoop g0 maxN k fuel css st) :=
  iterOpt_inv (fun _ _ _ hi hs => sbinv_next hg0 hi hs) fuel css st h

/-- Everything SB returns on a non-empty graph is a `GoodSample`. -/
theorem sb_out {g : SGraph} {maxN k : ℕ} {sizes cs : List ℕ} {css : List (List ℕ)}
    (hg : g.WF) (hne : g.nodes.Nonempty) (hmax : 1 ≤ maxN) :
    ∀ h ∈ SB g maxN k sizes cs css,
      GoodSample (relabel g) (pickStart (relabel g) cs) maxN h := by
  have hg0 : (relabel g).WF := relabel_WF hg
  have hnl : (relabel g).nodeList ≠ [] := relabel_nodeList_ne hne
  have hinv : SBInv (relabel g) (pickStart (relabel g) cs) maxN
      (List.insertionSort (· ≤ ·) sizes) (SBstate g maxN k sizes cs css) :=
    sbLoop_inv hg0 _ _ _ (sbinv_init hnl hmax sizes cs)
  intro h hh
  rw [SB, if_neg (by simpa using hnl)] at hh
  unfold sbFinalize at hh
  rcases List.mem_append.mp hh with hh | hh
  · exact hinv.filledGood h hh
  · rw [List.eq_of_mem_replicate hh]
    have hpos : 0 < (SBstate g maxN k sizes cs css).samp.nodes.card :=
      Finset.card_pos.mpr ⟨_, hinv.good.startMem⟩
    rw [if_pos hpos]
    exact hinv.good

/-! ## TIES invariants -/

theorem induced_nodes_sub (g : SGraph) (s : Finset ℕ) : (g.induced s).nodes ⊆ g.nodes :=
  Finset.inter_subset_left

theorem induced_edges_sub (g : SGraph) (s : Finset ℕ) : (g.induced s).edges ⊆ g.edges :=
  Finset.filter_subset _ _

theorem induced_nodes_of_subset {g : SGraph} {s : Finset ℕ} (hsub : s ⊆ g.nodes) :
    (g.induced s).nodes = s := by
  rw [SGraph.induced_nodes]
  exact Finset.inter_eq_right.mpr hsub

theorem induced_mono_nodes {g : SGraph} {s s' : Finset ℕ} (h : s ⊆ s') :
    (g.induced s).nodes ⊆ (g.induced s').nodes := by
  rw [SGraph.induced_nodes, SGraph.induced_nodes]
  exact Finset.inter_subset_inter (le_refl _) h

theorem induced_mono_edges {g : SGraph} {s s' : Finset ℕ} (h : s ⊆ s') :
    (g.induced s).edges ⊆ (g.induced s').edges := by
  rw [SGraph.induced_edges, SGraph.induced_edges]
  intro p hp
  rw [Finset.mem_filter] at hp ⊢
  exact ⟨hp.1, h hp.2.1, h hp.2.2⟩

theorem tiesS1_sub (u : ℕ) (sel : Finset ℕ) : sel ⊆ tiesS1 u sel := by
  unfold tiesS1
  split
  · exact Finset.subset_insert _ _
  · exact Finset.Subset.refl _

theorem tiesS1_sub_insert (u : ℕ) (sel : Finset ℕ) : tiesS1 u sel ⊆ insert u sel := by
  unfold tiesS1
  split
  · exact Finset.Subset.refl _
  · exact Finset.subset_insert _ _

theorem tiesS2_sub (maxN v : ℕ) (s1 : Finset ℕ) : s1 ⊆ tiesS2 maxN v s1 := by
  unfold tiesS2
  split
  · exact Finset.subset_insert _ _
  · exact Finset.Subset.refl _

theorem tiesS2_sub_insert (maxN v : ℕ) (s1 : Finset ℕ) :
    tiesS2 maxN v s1 ⊆ insert v s1 := by
  unfold tiesS2
  split
  · exact Finset.Subset.refl _
  · exact Finset.subset_insert _ _

theorem tiesS1_card {u : ℕ} {sel : Finset ℕ} {maxN : ℕ} (h : sel.card < maxN) :
    (tiesS1 u sel).card ≤ maxN := by
  unfold tiesS1
  split
  · have := Finset.card_insert_le u sel
    omega
  · omega

theorem tiesS2_card {maxN v : ℕ} {s1 : Finset ℕ} (h : s1.card ≤ maxN) :
    (tiesS2 maxN v s1).card ≤ maxN := by
  unfold tiesS2
  split
  next hc =>
    rw [Finset.card_insert_of_not_mem hc.1]
    omega
  next => exact h

/-- Loop invariant of the TIES scan: the selected set sits inside the node
set, respects the cap, and the checkpoint state is consistent with the
induced subgraph on the current selection. -/
structure TInv (g0 : SGraph) (maxN : ℕ) (sizes : List ℕ) (st : TState) : Prop where
  selSub : st.sel ⊆ g0.nodes
  selCard : st.sel.card ≤ maxN
  cps : CpsInv sizes (g0.induced st.sel) st.rem st.filled

theorem tiesScan_inv {g0 : SGraph} {maxN : ℕ} {sizes : List ℕ} :
    ∀ (es : List (ℕ × ℕ)) (st : TState),
      (∀ e ∈ es, e.1 ∈ g0.nodes ∧ e.2 ∈ g0.nodes) →
      TInv g0 maxN sizes st → TInv g0 maxN sizes (tiesScan g0 maxN es st) := by
  intro es
  induction es with
  | nil =>
    intro st _ h
    rw [tiesScan]
    exact h
  | cons e rest ih =>
    obtain ⟨u, v⟩ := e
    intro st hmem h
    have huv : u ∈ g0.nodes ∧ v ∈ g0.nodes := hmem (u, v) (by simp)
    have hrest : ∀ e ∈ rest, e.1 ∈ g0.nodes ∧ e.2 ∈ g0.nodes :=
      fun e he => hmem e (List.mem_cons_of_mem _ he)
    rw [tiesScan]
    by_cases hcap : maxN ≤ st.sel.card
    · rw [if_pos hcap]
      exact h
    · rw [if_neg hcap]
      push_neg at hcap
      have hsub12 : st.sel ⊆ tiesS2 maxN v (tiesS1 u st.sel) :=
        (tiesS1_sub u st.sel).trans (tiesS2_sub maxN v _)
      have hsubg : tiesS2 maxN v (tiesS1 u st.sel) ⊆ g0.nodes := by
        refine (tiesS2_sub_insert maxN v _).trans ?_
        intro x hx
        rcases Finset.mem_insert.mp hx with rfl | hx
        · exact huv.2
        · rcases Finset.mem_insert.mp ((tiesS1_sub_insert u st.sel) hx) with rfl | hx
          · exact huv.1
          · exact h.selSub hx
      have hcard2 : (tiesS2 maxN v (tiesS1 u st.sel)).card ≤ maxN :=
        tiesS2_card (tiesS1_card hcap)
      by_cases heq : (tiesS2 maxN v (tiesS1 u st.sel)).card = st.sel.card
      · rw [if_pos heq]
        have hsame : tiesS2 maxN v (tiesS1 u st.sel) = st.sel :=
          (Finset.eq_of_subset_of_card_le hsub12 (le_of_eq heq)).symm
        refine ih _ hrest ?_
        constructor
        · show tiesS2 maxN v (tiesS1 u st.sel) ⊆ g0.nodes
          exact hsubg
        · show (tiesS2 maxN v (tiesS1 u st.sel)).card ≤ maxN
          exact hcard2
        · show CpsInv sizes (g0.induced (tiesS2 maxN v (tiesS1 u st.sel))) st.rem st.filled
          rw [hsame]
          exact h.cps
      · rw [if_neg heq]
        refine ih _ hrest ?_
        have hcardeq : (g0.induced (tiesS2 maxN v (tiesS1 u st.sel))).nodes.card =
            (tiesS2 maxN v (tiesS1 u st.sel)).card := by
          rw [induced_nodes_of_subset hsubg]
        have hadv := cpsInv_advance h.cps (induced_mono_nodes hsub12)
          (induced_mono_edges hsub12)
        rw [hcardeq] at hadv
        exact ⟨hsubg, hcard2, hadv⟩

theorem ties_scanlist_nodes {g0 : SGraph} (cs cs2 : List ℕ) :
    ∀ e ∈ orientWith cs2 (shuffleWith cs g0.edgeList),
      e.1 ∈ g0.nodes ∧ e.2 ∈ g0.nodes := by
  intro e he
  rcases mem_orientWith _ _ _ he with h | h
  · have := mem_edgeList (mem_shuffleWith h)
    exact ⟨this.2.1, this.2.2⟩
  · have := mem_edgeList (mem_shuffleWith h)
    exact ⟨this.2.2, this.2.1⟩

theorem ties_state_inv {g : SGraph} {maxN : ℕ} {sizes cs cs2 : List ℕ} :
    TInv (relabel g) maxN (List.insertionSort (· ≤ ·) sizes)
      (TIESstate g maxN sizes cs cs2) := by
  unfold TIESstate
  refine tiesScan_inv _ _ (ties_scanlist_nodes cs cs2) ?_
  exact ⟨by simp, by simp, cpsInv_start _ _⟩

/-- Everything TIES returns is a subgraph of the relabeled source. -/
theorem ties_out {g : SGraph} {maxN : ℕ} {sizes cs cs2 : List ℕ} :
    ∀ h ∈ TIES g maxN sizes cs cs2,
      h.nodes ⊆ (relabel g).nodes ∧ h.edges ⊆ (relabel g).edges := by
  have hinv : TInv (relabel g) maxN (List.insertionSort (· ≤ ·) sizes)
      (TIESstate g maxN sizes cs cs2) := ties_state_inv
  intro h hh
  rw [TIES] at hh
  unfold tiesFinalize at hh
  rcases List.mem_append.mp hh with hh | hh
  · constructor
    · exact (hinv.cps.subN h hh).trans (induced_nodes_sub _ _)
    · exact (hinv.cps.subE h hh).trans (induced_edges_sub _ _)
  · rw [List.eq_of_mem_replicate hh]
    split
    · exact ⟨induced_nodes_sub _ _, induced_edges_sub _ _⟩
    · simp

/-! ## IRWEB invariants -/

/-- The IRWEB sample stays inside the working graph. -/
def IRSub (g0 : SGraph) (st : IRState) : Prop :=
  st.samp.nodes ⊆ g0.nodes ∧ st.samp.edges ⊆ g0.edges

theorem localInduce_sub {g0 samp : SGraph} {u : ℕ}
    (h : samp.nodes ⊆ g0.nodes ∧ samp.edges ⊆ g0.edges) :
    (localInduce g0 samp u).nodes ⊆ g0.nodes ∧
      (localInduce g0 samp u).edges ⊆ g0.edges := by
  unfold localInduce
  constructor
  · rw [SGraph.gunion_nodes]
    exact Finset.union_subset h.1 (induced_nodes_sub _ _)
  · rw [SGraph.gunion_edges]
    exact Finset.union_subset h.2 (induced_edges_sub _ _)

theorem irwebBody_sub {g0 : SGraph} {c : ℕ} {st : IRState} (h : IRSub g0 st) :
    IRSub g0 (irwebBody g0 c st) := by
  unfold irwebBody
  split
  · split
    · exact h
    · exact h
  · split
    · exact localInduce_sub h
    · exact h

theorem irwebLoop_sub {g0 : SGraph} {n : ℕ} (fuel : ℕ) (cs : List ℕ)
    (st : IRState) (h : IRSub g0 st) : IRSub g0 (irwebLoop g0 n fuel cs st) := by
  refine iterOpt_inv ?_ fuel cs st h
  intro c s s2 hs hstep
  unfold irwebNext at hstep
  split at hstep
  · injection hstep with h2
    exact h2 ▸ irwebBody_sub hs
  · exact absurd hstep (by simp)

/-- The IRWEB result is a subgraph of the relabeled source. -/
theorem irweb_out {g : SGraph} {n : ℕ} {cs : List ℕ} :
    (IRWEB g n cs).nodes ⊆ (relabel g).nodes ∧
      (IRWEB g n cs).edges ⊆ (relabel g).edges := by
  rw [IRWEB]
  split
  · simp
  · refine irwebLoop_sub _ _ _ ?_
    unfold irwebInit
    exact localInduce_sub (by simp)

/-! ## Shared finalization lemmas -/

theorem iterOpt_stuck {σ ρ : Type} {dflt : ρ} {f : ρ → σ → Option σ} {st : σ}
    (h : ∀ c, f c st = none) :
    ∀ (fuel : ℕ) (cs : List ρ), iterOpt dflt f fuel cs st = st := by
  intro fuel cs
  cases fuel with
  | zero => rfl
  | succ n =>
    rw [iterOpt, h (cs.headD dflt)]

theorem goodSample_connected {g0 : SGraph} {start maxN : ℕ} {h : SGraph}
    (hgood : GoodSample g0 start maxN h) : ConnectedG h := by
  intro a ha b hb
  exact Relation.ReflTransGen.trans (reach_symm hgood.symm (hgood.reach a ha))
    (hgood.reach b hb)

theorem monoChain_replicate (m : ℕ) (s : SGraph) : MonoChain (List.replicate m s) := by
  intro i j hij hj
  rw [List.length_replicate] at hj
  rw [getD_replicate_of_lt (by omega), getD_replicate_of_lt hj]

/-- Slots inside the filled prefix all fit inside the finalization graph of
RWEB/SB. -/
theorem fin_sub {sizes : List ℕ} {samp : SGraph} {rem : List ℕ} {filled : List SGraph}
    (hcps : CpsInv sizes samp rem filled) :
    ∀ h ∈ filled, h.nodes ⊆ (if 0 < samp.nodes.card then samp else SGraph.empty).nodes := by
  intro h hh
  split
  · exact hcps.subN h hh
  · next hc =>
    have hz : samp.nodes = ∅ := by
      rw [← Finset.card_eq_zero]
      omega
    intro x hx
    have := hcps.subN h hh hx
    rw [hz] at this
    exact absurd this (Finset.not_mem_empty _)

/-- Slots inside the filled prefix all fit inside the finalization graph of
TIES. -/
theorem fin_sub_ties {sizes : List ℕ} {g0 : SGraph} {sel : Finset ℕ} {rem : List ℕ}
    {filled : List SGraph} (hcps : CpsInv sizes (g0.induced sel) rem filled) :
    ∀ h ∈ filled, h.nodes ⊆
      (if sel.Nonempty then g0.induced sel else SGraph.empty).nodes := by
  intro h hh
  split
  · exact hcps.subN h hh
  · next hc =>
    rw [Finset.not_nonempty_iff_eq_empty] at hc
    intro x hx
    have := hcps.subN h hh hx
    rw [hc, SGraph.induced_nodes, Finset.inter_empty] at this
    exact absurd this (Finset.not_mem_empty _)

/-- Indexing the finalized checkpoint list: slots beyond the filled prefix
hold the finalization graph. -/
theorem getD_append_replicate_right {α : Type} {l : List α} {s d : α} {m i : ℕ}
    (h1 : l.length ≤ i) (h2 : i < l.length + m) :
    (l ++ List.replicate m s).getD i d = s := by
  rw [List.getD_append_right _ _ _ _ h1]
  exact getD_replicate_of_lt (by omega)

theorem tiesScan_stop {g0 : SGraph} {maxN : ℕ} :
    ∀ (es : List (ℕ × ℕ)) (st : TState), maxN ≤ st.sel.card →
      tiesScan g0 maxN es st = st := by
  intro es
  induction es with
  | nil => intro st _; rw [tiesScan]
  | cons e rest _ =>
    obtain ⟨u, v⟩ := e
    intro st h
    rw [tiesScan, if_pos h]

theorem tiesScan_sel_mono {g0 : SGraph} {maxN : ℕ} :
    ∀ (es : List (ℕ × ℕ)) (st : TState), st.sel ⊆ (tiesScan g0 maxN es st).sel := by
  intro es
  induction es with
  | nil => intro st; rw [tiesScan]
  | cons e rest ih =>
    obtain ⟨u, v⟩ := e
    intro st
    rw [tiesScan]
    by_cases hcap : maxN ≤ st.sel.card
    · rw [if_pos hcap]
    · rw [if_neg hcap]
      have hsub : st.sel ⊆ tiesS2 maxN v (tiesS1 u st.sel) :=
        (tiesS1_sub u st.sel).trans (tiesS2_sub maxN v _)
      split
      · exact hsub.trans
          (ih ⟨tiesS2 maxN v (tiesS1 u st.sel), st.rem, st.filled⟩)
      · exact hsub.trans
          (ih ⟨tiesS2 maxN v (tiesS1 u st.sel),
            (advanceCps (tiesS2 maxN v (tiesS1 u st.sel)).card
              (g0.induced (tiesS2 maxN v (tiesS1 u st.sel))) st.rem st.filled).1,
            (advanceCps (tiesS2 maxN v (tiesS1 u st.sel)).card
              (g0.induced (tiesS2 maxN v (tiesS1 u st.sel))) st.rem st.filled).2⟩)

theorem tiesScan_card {g0 : SGraph} {maxN : ℕ} :
    ∀ (es : List (ℕ × ℕ)) (st : TState), st.sel.card ≤ maxN →
      (tiesScan g0 maxN es st).sel.card ≤ maxN := by
  intro es
  induction es with
  | nil => intro st h; rw [tiesScan]; exact h
  | cons e rest ih =>
    obtain ⟨u, v⟩ := e
    intro st h
    rw [tiesScan]
    by_cases hcap : maxN ≤ st.sel.card
    · rw [if_pos hcap]
      exact h
    · rw [if_neg hcap]
      push_neg at hcap
      have hcard2 : (tiesS2 maxN v (tiesS1 u st.sel)).card ≤ maxN :=
        tiesS2_card (tiesS1_card hcap)
      split
      · exact ih ⟨tiesS2 maxN v (tiesS1 u st.sel), st.rem, st.filled⟩ hcard2
      · exact ih ⟨tiesS2 maxN v (tiesS1 u st.sel),
          (advanceCps (tiesS2 maxN v (tiesS1 u st.sel)).card
            (g0.induced (tiesS2 maxN v (tiesS1 u st.sel))) st.rem st.filled).1,
          (advanceCps (tiesS2 maxN v (tiesS1 u st.sel)).card
            (g0.induced (tiesS2 maxN v (tiesS1 u st.sel))) st.rem st.filled).2⟩ hcard2

/-! ## Claim theorems -/

/-- C1: for every engine (RWEB, IRWEB, SB, TIES) and every non-empty
well-formed input graph (with positive size parameters, per the spec's
preconditions), every returned graph — the single IRWEB result and every
checkpoint-list element of RWEB, SB and TIES — is a subgraph of the
integer-relabeled source graph: its nodes are nodes of `relabel g` and its
edges are edges of `relabel g`.  Quantified over all randomness streams. -/
theorem spec_c1 (g : SGraph) (hg : g.WF) (hne : g.nodes.Nonempty)
    (maxN n k : ℕ) (hmax : 1 ≤ maxN) (sizes cs cs2 : List ℕ)
    (css : List (List ℕ)) :
    (∀ h ∈ RWEB g maxN sizes cs,
      h.nodes ⊆ (relabel g).nodes ∧ h.edges ⊆ (relabel g).edges) ∧
    ((IRWEB g n cs).nodes ⊆ (relabel g).nodes ∧
      (IRWEB g n cs).edges ⊆ (relabel g).edges) ∧
    (∀ h ∈ SB g maxN k sizes cs css,
      h.nodes ⊆ (relabel g).nodes ∧ h.edges ⊆ (relabel g).edges) ∧
    (∀ h ∈ TIES g maxN sizes cs cs2,
      h.nodes ⊆ (relabel g).nodes ∧ h.edges ⊆ (relabel g).edges) := by
  refine ⟨?_, irweb_out, ?_, ties_out⟩
  · intro h hh
    have := rweb_out hg hne hmax h hh
    exact ⟨this.nodesSub, this.edgesSub⟩
  · intro h hh
    have := sb_out hg hne hmax h hh
    exact ⟨this.nodesSub, this.edgesSub⟩

/-- C1 witness: concrete instance on the single-edge graph. -/
theorem spec_c1_w :
    (∀ h ∈ RWEB k2 1 [1] [], h.nodes ⊆ (relabel k2).nodes ∧
      h.edges ⊆ (relabel k2).edges) ∧
    ((IRWEB k2 1 []).nodes ⊆ (relabel k2).nodes ∧
      (IRWEB k2 1 []).edges ⊆ (relabel k2).edges) ∧
    (∀ h ∈ SB k2 1 1 [1] [] [], h.nodes ⊆ (relabel k2).nodes ∧
      h.edges ⊆ (relabel k2).edges) ∧
    (∀ h ∈ TIES k2 1 [1] [] [], h.nodes ⊆ (relabel k2).nodes ∧
      h.edges ⊆ (relabel k2).edges) :=
  spec_c1 k2 (by decide) (by decide) 1 1 1 (by decide) [1] [] [] []

/-- C10: for RWEB and SB on a non-empty well-formed graph, every returned
graph (every checkpoint snapshot and the final sample) is connected: any
two of its nodes are joined by a path inside it.  This follows from the
growth discipline: each new node arrives together with an edge to an
already-sampled node. -/
theorem spec_c10 (g : SGraph) (hg : g.WF) (hne : g.nodes.Nonempty)
    (maxN k : ℕ) (hmax : 1 ≤ maxN) (sizes cs : List ℕ) (css : List (List ℕ)) :
    (∀ h ∈ RWEB g maxN sizes cs, ConnectedG h) ∧
    (∀ h ∈ SB g maxN k sizes cs css, ConnectedG h) := by
  constructor
  · intro h hh
    exact goodSample_connected (rweb_out hg hne hmax h hh)
  · intro h hh
    exact goodSample_connected (sb_out hg hne hmax h hh)

/-- C10 witness: concrete instance on the single-edge graph. -/
theorem spec_c10_w :
    (∀ h ∈ RWEB k2 2 [1] [], ConnectedG h) ∧
    (∀ h ∈ SB k2 2 1 [1] [] [], ConnectedG h) :=
  spec_c10 k2 (by decide) (by decide) 2 1 (by decide) [1] [] []

/-- C2 (amended): for every non-empty well-formed graph and positive
`max_n` (and `k`), the node count of every graph returned by RWEB and SB is
at most `max_n`, and the node count of RWEB's final sample is exactly
`max_n` whenever the connected component of the relabeled source containing
the chosen start node holds at least `max_n` nodes (expressed via any witness
set `C` of reachable nodes with `max_n ≤ |C|`).  The original claim's
exactness promise for SB is dropped: SB's BFS can exhaust its queue below
`max_n` (see the counterexample), and the exactness concerns the final
sample, not early snapshots. -/
theorem spec_c2 (g : SGraph) (hg : g.WF) (hne : g.nodes.Nonempty)
    (maxN k : ℕ) (hmax : 1 ≤ maxN) (sizes cs : List ℕ) (css : List (List ℕ)) :
    (∀ h ∈ RWEB g maxN sizes cs, h.nodes.card ≤ maxN) ∧
    (∀ h ∈ SB g maxN k sizes cs css, h.nodes.card ≤ maxN) ∧
    (∀ C : Finset ℕ, (∀ u ∈ C, Reach (relabel g) (pickStart (relabel g) cs) u) →
      maxN ≤ C.card → (RWEBstate g maxN sizes cs).samp.nodes.card = maxN) := by
  have hg0 : (relabel g).WF := relabel_WF hg
  have hnl : (relabel g).nodeList ≠ [] := relabel_nodeList_ne hne
  have hinv : RWInv (relabel g) (pickStart (relabel g) cs) maxN
      (List.insertionSort (· ≤ ·) sizes) (RWEBstate g maxN sizes cs) :=
    rwebLoop_inv _ _ _ (rwinv_init hg0 hnl hmax sizes cs)
  refine ⟨?_, ?_, ?_⟩
  · intro h hh
    exact (rweb_out hg hne hmax h hh).cardLe
  · intro h hh
    exact (sb_out hg hne hmax h hh).cardLe
  · intro C hC hCcard
    have hmeas : rwebMeasure (rwebInit (relabel g) sizes cs) ≤
        2 * (relabel g).edges.card + (relabel g).nodes.card + 1 := by
      have : rwebMeasure (rwebInit (relabel g) sizes cs) =
          2 * (relabel g).edges.card + 1 := rfl
      omega
    have hexit := @rwebLoop_exit maxN
      (2 * (relabel g).edges.card + (relabel g).nodes.card + 1) cs.tail
      (rwebInit (relabel g) sizes cs) hmeas
    have hexit2 : ¬((RWEBstate g maxN sizes cs).samp.nodes.card < maxN ∧
        (RWEBstate g maxN sizes cs).stk ≠ []) := hexit
    have hcardle := hinv.good.cardLe
    rcases not_and_or.mp hexit2 with hbig | hstk
    · omega
    · push_neg at hstk
      have hCsub : C ⊆ (RWEBstate g maxN sizes cs).samp.nodes := by
        intro u hu
        exact rweb_component_sampled hg0 hinv hstk (hC u hu)
      have := Finset.card_le_card hCsub
      omega

/-- C2 witness: on the single-edge graph with `max_n = 2` the component
hypothesis is witnessed by `{0, 1}` and the final RWEB sample has exactly
two nodes. -/
theorem spec_c2_w :
    (∀ h ∈ RWEB k2 2 [1] [], h.nodes.card ≤ 2) ∧
    (∀ h ∈ SB k2 2 1 [1] [] [], h.nodes.card ≤ 2) ∧
    (RWEBstate k2 2 [1] []).samp.nodes.card = 2 := by
  have h := spec_c2 k2 (by decide) (by decide) 2 1 (by decide) [1] [] []
  refine ⟨h.1, h.2.1, h.2.2 {0, 1} ?_ (by decide)⟩
  intro u hu
  have hst : pickStart (relabel k2) ([] : List ℕ) = 0 := by decide
  rw [hst]
  rcases Finset.mem_insert.mp hu with rfl | hu
  · exact Relation.ReflTransGen.refl
  · rw [Finset.mem_singleton.mp hu]
    exact reach_single (by decide)

/-- C4: for each checkpointed engine (RWEB, SB, TIES) on a well-formed
graph, the returned checkpoint list is a monotone chain: the node set of an
earlier slot is contained in the node set of any later slot.  In particular,
for thresholds `t1 < t2` that are both reached, the `t1` snapshot's node set
is a subset of the `t2` snapshot's. -/
theorem spec_c4 (g : SGraph) (hg : g.WF) (maxN k : ℕ) (hmax : 1 ≤ maxN)
    (sizes cs cs2 : List ℕ) (css : List (List ℕ)) :
    MonoChain (RWEB g maxN sizes cs) ∧ MonoChain (SB g maxN k sizes cs css) ∧
      MonoChain (TIES g maxN sizes cs cs2) := by
  have hg0 : (relabel g).WF := relabel_WF hg
  refine ⟨?_, ?_, ?_⟩
  · rcases Classical.em g.nodes.Nonempty with hne | hne
    · have hnl : (relabel g).nodeList ≠ [] := relabel_nodeList_ne hne
      have hinv : RWInv (relabel g) (pickStart (relabel g) cs) maxN
          (List.insertionSort (· ≤ ·) sizes) (RWEBstate g maxN sizes cs) :=
        rwebLoop_inv _ _ _ (rwinv_init hg0 hnl hmax sizes cs)
      rw [RWEB, if_neg (by simpa using hnl)]
      exact monoChain_append_replicate hinv.cps.mono (fin_sub hinv.cps)
    · rw [Finset.not_nonempty_iff_eq_empty] at hne
      rw [RWEB, if_pos (by simp [relabel_nodeList_eq_nil hne])]
      exact monoChain_replicate _ _
  · rcases Classical.em g.nodes.Nonempty with hne | hne
    · have hnl : (relabel g).nodeList ≠ [] := relabel_nodeList_ne hne
      have hinv : SBInv (relabel g) (pickStart (relabel g) cs) maxN
          (List.insertionSort (· ≤ ·) sizes) (SBstate g maxN k sizes cs css) :=
        sbLoop_inv hg0 _ _ _ (sbinv_init hnl hmax sizes cs)
      rw [SB, if_neg (by simpa using hnl)]
      exact monoChain_append_replicate hinv.cps.mono (fin_sub hinv.cps)
    · rw [Finset.not_nonempty_iff_eq_empty] at hne
      rw [SB, if_pos (by simp [relabel_nodeList_eq_nil hne])]
      exact monoChain_replicate _ _
  · have hinv : TInv (relabel g) maxN (List.insertionSort (· ≤ ·) sizes)
        (TIESstate g maxN sizes cs cs2) := ties_state_inv
    rw [TIES]
    exact monoChain_append_replicate hinv.cps.mono (fin_sub_ties hinv.cps)

/-- C4 witness: concrete instance on the single-edge graph. -/
theorem spec_c4_w :
    MonoChain (RWEB k2 2 [1, 2] []) ∧ MonoChain (SB k2 2 1 [1, 2] [] []) ∧
      MonoChain (TIES k2 2 [1, 2] [] []) :=
  spec_c4 k2 (by decide) 2 1 (by decide) [1, 2] [] [] []

/-- A slot whose threshold exceeds the final size was never filled during
the run, so the finalization value lands in it. -/
theorem unreached_slot {sizes : List ℕ} {samp fin : SGraph} {rem : List ℕ}
    {filled : List SGraph} (hcps : CpsInv sizes samp rem filled) {i : ℕ}
    (hi : i < sizes.length) (ht : samp.nodes.card < sizes.getD i 0) :
    (filled ++ List.replicate rem.length fin).getD i SGraph.empty = fin := by
  have hflen : filled.length ≤ i := by
    by_contra hlt
    push_neg at hlt
    have hlen2 : i < (sizes.take filled.length).length := by
      rw [List.length_take]
      omega
    have hgetTake : (sizes.take filled.length).getD i 0 = sizes.getD i 0 := by
      rw [List.getD_eq_getElem _ _ hlen2, List.getD_eq_getElem _ _ hi]
      exact List.getElem_take sizes
    have hmemTake : sizes.getD i 0 ∈ sizes.take filled.length := by
      rw [← hgetTake]
      exact getD_mem_of_lt hlen2 _
    have := hcps.takeLe _ hmemTake
    omega
  have hremlen : rem.length = sizes.length - filled.length := by
    rw [← hcps.dropEq, List.length_drop]
  exact getD_append_replicate_right hflen (by omega)

/-- C5: for every checkpointed engine, every slot whose threshold was never
reached during the run (equivalently, since the sample size only grows:
whose threshold exceeds the final sample size) is filled with the final
sampled graph — for TIES the final induced subgraph, or an empty graph when
the selection stayed empty — and on an empty source graph with
`checkpoint_sizes = [1, 3, 5]` each engine returns three empty graphs. -/
theorem spec_c5 (g : SGraph) (hg : g.WF) (maxN k : ℕ) (hmax : 1 ≤ maxN)
    (sizes cs cs2 : List ℕ) (css : List (List ℕ)) :
    (g.nodes.Nonempty → ∀ i, i < (List.insertionSort (· ≤ ·) sizes).length →
      (RWEBstate g maxN sizes cs).samp.nodes.card <
        (List.insertionSort (· ≤ ·) sizes).getD i 0 →
      (RWEB g maxN sizes cs).getD i SGraph.empty = (RWEBstate g maxN sizes cs).samp) ∧
    (g.nodes.Nonempty → ∀ i, i < (List.insertionSort (· ≤ ·) sizes).length →
      (SBstate g maxN k sizes cs css).samp.nodes.card <
        (List.insertionSort (· ≤ ·) sizes).getD i 0 →
      (SB g maxN k sizes cs css).getD i SGraph.empty =
        (SBstate g maxN k sizes cs css).samp) ∧
    (∀ i, i < (List.insertionSort (· ≤ ·) sizes).length →
      (TIESstate g maxN sizes cs cs2).sel.card <
        (List.insertionSort (· ≤ ·) sizes).getD i 0 →
      (TIES g maxN sizes cs cs2).getD i SGraph.empty =
        (if (TIESstate g maxN sizes cs cs2).sel.Nonempty then
          (relabel g).induced (TIESstate g maxN sizes cs cs2).sel
         else SGraph.empty)) ∧
    (g.nodes = ∅ →
      RWEB g maxN [1, 3, 5] cs = List.replicate 3 SGraph.empty ∧
      SB g maxN k [1, 3, 5] cs css = List.replicate 3 SGraph.empty ∧
      TIES g maxN [1, 3, 5] cs cs2 = List.replicate 3 SGraph.empty) := by
  have hg0 : (relabel g).WF := relabel_WF hg
  refine ⟨?_, ?_, ?_, ?_⟩
  · intro hne i hi ht
    have hnl : (relabel g).nodeList ≠ [] := relabel_nodeList_ne hne
    have hinv : RWInv (relabel g) (pickStart (relabel g) cs) maxN
        (List.insertionSort (· ≤ ·) sizes) (RWEBstate g maxN sizes cs) :=
      rwebLoop_inv _ _ _ (rwinv_init hg0 hnl hmax sizes cs)
    have hpos : 0 < (RWEBstate g maxN sizes cs).samp.nodes.card :=
      Finset.card_pos.mpr ⟨_, hinv.good.startMem⟩
    rw [RWEB, if_neg (by simpa using hnl)]
    unfold checkFinalize
    rw [unreached_slot hinv.cps hi ht, if_pos hpos]
  · intro hne i hi ht
    have hnl : (relabel g).nodeList ≠ [] := relabel_nodeList_ne hne
    have hinv : SBInv (relabel g) (pickStart (relabel g) cs) maxN
        (List.insertionSort (· ≤ ·) sizes) (SBstate g maxN k sizes cs css) :=
      sbLoop_inv hg0 _ _ _ (sbinv_init hnl hmax sizes cs)
    have hpos : 0 < (SBstate g maxN k sizes cs css).samp.nodes.card :=
      Finset.card_pos.mpr ⟨_, hinv.good.startMem⟩
    rw [SB, if_neg (by simpa using hnl)]
    unfold sbFinalize
    rw [unreached_slot hinv.cps hi ht, if_pos hpos]
  · intro i hi ht
    have hinv : TInv (relabel g) maxN (List.insertionSort (· ≤ ·) sizes)
        (TIESstate g maxN sizes cs cs2) := ties_state_inv
    have hcardeq : ((relabel g).induced (TIESstate g maxN sizes cs cs2).sel).nodes.card =
        (TIESstate g maxN sizes cs cs2).sel.card := by
      rw [induced_nodes_of_subset hinv.selSub]
    rw [TIES]
    unfold tiesFinalize
    exact unreached_slot hinv.cps hi (by omega)
  · intro hempty
    refine ⟨?_, ?_, ?_⟩
    · rw [RWEB, if_pos (by simp [relabel_nodeList_eq_nil hempty])]
      rfl
    · rw [SB, if_pos (by simp [relabel_nodeList_eq_nil hempty])]
      rfl
    · have hnodes : (relabel g).nodes = ∅ := by
        simp [relabel, hempty]
      have hsl : sortedList (relabel g).nodes = [] := sortedList_eq_nil.mpr hnodes
      have hel : (relabel g).edgeList = [] := by
        unfold SGraph.edgeList
        rw [hsl]
        rfl
      have hstate : TIESstate g maxN [1, 3, 5] cs cs2 =
          ⟨∅, List.insertionSort (· ≤ ·) [1, 3, 5], []⟩ := by
        simp only [TIESstate]
        rw [hel]
        rfl
      rw [TIES, hstate]
      simp [tiesFinalize, List.length_insertionSort]

/-- C5 witness: concrete instances — an unreached slot on the single-edge
graph for each engine, and the empty-graph call with thresholds `[1,3,5]`. -/
theorem spec_c5_w :
    ((RWEB k2 1 [1, 3] []).getD 1 SGraph.empty = (RWEBstate k2 1 [1, 3] []).samp) ∧
    ((SB k2 1 1 [1, 3] [] []).getD 1 SGraph.empty =
      (SBstate k2 1 1 [1, 3] [] []).samp) ∧
    ((TIES k2 1 [1, 3] [] []).getD 1 SGraph.empty =
      (if (TIESstate k2 1 [1, 3] [] []).sel.Nonempty then
        (relabel k2).induced (TIESstate k2 1 [1, 3] [] []).sel
       else SGraph.empty)) ∧
    (RWEB SGraph.empty 1 [1, 3, 5] [] = List.replicate 3 SGraph.empty ∧
      SB SGraph.empty 1 1 [1, 3, 5] [] [] = List.replicate 3 SGraph.empty ∧
      TIES SGraph.empty 1 [1, 3, 5] [] [] = List.replicate 3 SGraph.empty) := by
  have h1 := spec_c5 k2 (by decide) 1 1 (by decide) [1, 3] [] [] []
  have h2 := spec_c5 SGraph.empty (by decide) 1 1 (by decide) [1] [] [] []
  exact ⟨h1.1 (by decide) 1 (by decide) (by decide),
         h1.2.1 (by decide) 1 (by decide) (by decide),
         h1.2.2.1 1 (by decide) (by decide),
         h2.2.2.2 rfl⟩

theorem tiesS1_mem (u : ℕ) (sel : Finset ℕ) : u ∈ tiesS1 u sel := by
  unfold tiesS1
  split
  · exact Finset.mem_insert_self _ _
  · next hc =>
    push_neg at hc
    exact hc

/-- C6 (amended): in TIES, only the second endpoint of a scanned edge is
subject to the cap: an edge scanned while the count has already reached
`max_n` changes nothing, but when the count is below `max_n`, the first
endpoint is always added if absent and only the second endpoint is skipped
when adding it would exceed `max_n` (the selection after processing the
edge is exactly `tiesS2 max_n v (tiesS1 u sel)`); the selected count still
never exceeds `max_n` at any point of the scan. -/
theorem spec_c6_amended (g0 : SGraph) (maxN u v : ℕ) (rest : List (ℕ × ℕ))
    (st : TState) (g : SGraph) (sizes cs cs2 : List ℕ) :
    (maxN ≤ st.sel.card → tiesScan g0 maxN ((u, v) :: rest) st = st) ∧
    (st.sel.card < maxN →
      (tiesScan g0 maxN [(u, v)] st).sel = tiesS2 maxN v (tiesS1 u st.sel) ∧
      u ∈ (tiesScan g0 maxN [(u, v)] st).sel) ∧
    (st.sel.card ≤ maxN → (tiesScan g0 maxN ((u, v) :: rest) st).sel.card ≤ maxN) ∧
    (TIESstate g maxN sizes cs cs2).sel.card ≤ maxN := by
  refine ⟨fun h => tiesScan_stop _ _ h, ?_, fun h => tiesScan_card _ _ h, ?_⟩
  · intro hcap
    have hsel : (tiesScan g0 maxN [(u, v)] st).sel =
        tiesS2 maxN v (tiesS1 u st.sel) := by
      rw [tiesScan, if_neg (by omega)]
      split
      · rw [tiesScan]
      · rw [tiesScan]
    refine ⟨hsel, ?_⟩
    rw [hsel]
    exact tiesS2_sub maxN v _ (tiesS1_mem u st.sel)
  · have hinv : TInv (relabel g) maxN (List.insertionSort (· ≤ ·) sizes)
        (TIESstate g maxN sizes cs cs2) := ties_state_inv
    exact hinv.selCard

/-- C6 amended witness: on the two disjoint edges with `max_n = 3`, edge
`(2,3)` scanned from selection `{0,1}` adds only endpoint 2, and a full
selection `{0,1,2}` blocks edge `(0,1)` entirely. -/
theorem spec_c6_amended_w :
    (tiesScan (relabel pairG) 3 [(0, 1)] ⟨{0, 1, 2}, [], []⟩ =
      (⟨{0, 1, 2}, [], []⟩ : TState)) ∧
    ((tiesScan (relabel pairG) 3 [(2, 3)] ⟨{0, 1}, [3], []⟩).sel =
      tiesS2 3 3 (tiesS1 2 {0, 1}) ∧
      2 ∈ (tiesScan (relabel pairG) 3 [(2, 3)] ⟨{0, 1}, [3], []⟩).sel) ∧
    ((tiesScan (relabel pairG) 3 [(2, 3)] ⟨{0, 1}, [3], []⟩).sel.card ≤ 3) ∧
    (TIESstate pairG 3 [3] [] []).sel.card ≤ 3 := by
  have h1 := spec_c6_amended (relabel pairG) 3 2 3 [] ⟨{0, 1}, [3], []⟩ pairG [3] [] []
  have h2 := spec_c6_amended (relabel pairG) 3 0 1 [] ⟨{0, 1, 2}, [], []⟩ pairG [3] [] []
  exact ⟨h2.1 (by decide), h1.2.1 (by decide), h1.2.2.1 (by decide), h1.2.2.2⟩

/-- C7 (amended): in the IRWEB loop body, the stack top equals the active
node after every move to a newly visited node (the node is pushed and made
active); a move to an already-visited node updates the active node without
pushing, so the stack top may then differ from the active node; and
backtracking pops the stack's top element — which need not be the active
node — and makes the new top (when one exists) the active node. -/
theorem spec_c7_amended (g : SGraph) (c : ℕ) (st : IRState) :
    ((irwebAvail g st).isEmpty = true → ∀ x rest, st.stk = x :: rest →
      (irwebBody g c st).stk = rest ∧ (irwebBody g c st).cur = rest.headD st.cur) ∧
    (¬(irwebAvail g st).isEmpty = true → irwebPick g c st ∉ st.vis →
      (irwebBody g c st).stk = irwebPick g c st :: st.stk ∧
      (irwebBody g c st).cur = irwebPick g c st) ∧
    (¬(irwebAvail g st).isEmpty = true → irwebPick g c st ∈ st.vis →
      (irwebBody g c st).stk = st.stk ∧ (irwebBody g c st).cur = irwebPick g c st) := by
  refine ⟨?_, ?_, ?_⟩
  · intro hav x rest hstk
    unfold irwebBody
    rw [if_pos hav, hstk]
    exact ⟨rfl, rfl⟩
  · intro hav hfresh
    unfold irwebBody
    rw [if_neg hav, if_pos hfresh]
    exact ⟨rfl, rfl⟩
  · intro hav hold
    unfold irwebBody
    rw [if_neg hav, if_neg (by simpa using hold)]
    exact ⟨rfl, rfl⟩

/-- C7 amended witness: the three cases exercised on the actual triangle
run: the initial fresh move, the move onto the already-visited start node,
and the subsequent backtrack that pops node 2 while node 0 is active. -/
theorem spec_c7_amended_w :
    (let g0 := relabel triG
     let s0 := irwebInit g0 [0, 0, 0, 0]
     let s2 := irwebLoop g0 5 2 [0, 0, 0] s0
     let s3 := irwebLoop g0 5 3 [0, 0, 0] s0
     ((irwebBody g0 0 s3).stk = [1, 0] ∧
       (irwebBody g0 0 s3).cur = [1, 0].headD s3.cur) ∧
     ((irwebBody g0 0 s0).stk = irwebPick g0 0 s0 :: s0.stk ∧
       (irwebBody g0 0 s0).cur = irwebPick g0 0 s0) ∧
     ((irwebBody g0 0 s2).stk = s2.stk ∧
       (irwebBody g0 0 s2).cur = irwebPick g0 0 s2)) := by
  have h3 := spec_c7_amended (relabel triG) 0
    (irwebLoop (relabel triG) 5 3 [0, 0, 0] (irwebInit (relabel triG) [0, 0, 0, 0]))
  have h0 := spec_c7_amended (relabel triG) 0 (irwebInit (relabel triG) [0, 0, 0, 0])
  have h2 := spec_c7_amended (relabel triG) 0
    (irwebLoop (relabel triG) 5 2 [0, 0, 0] (irwebInit (relabel triG) [0, 0, 0, 0]))
  exact ⟨h3.1 (by decide) 2 [1, 0] (by decide),
         h0.2.1 (by decide) (by decide),
         h2.2.2 (by decide) (by decide)⟩

/-- C8 (amended): the engines perform no parameter validation: with
`max_n = 0` — the embedding of any non-positive `max_n`, since every
comparison in the source behaves identically for all `max_n ≤ 0` — no error
is raised and a degenerate result is returned: RWEB and SB fill every
checkpoint slot with the one-node start sample, and TIES fills every slot
with an empty graph. -/
theorem spec_c8_amended (g : SGraph) (hne : g.nodes.Nonempty) (k : ℕ)
    (sizes cs cs2 : List ℕ) (css : List (List ℕ)) :
    (∀ h ∈ RWEB g 0 sizes cs, h.nodes.card = 1) ∧
    (∀ h ∈ SB g 0 k sizes cs css, h.nodes.card = 1) ∧
    (∀ h ∈ TIES g 0 sizes cs cs2, h.nodes.card = 0) := by
  have hnl : (relabel g).nodeList ≠ [] := relabel_nodeList_ne hne
  refine ⟨?_, ?_, ?_⟩
  · have hstuck : ∀ c, rwebNext 0 c (rwebInit (relabel g) sizes cs) = none := by
      intro c
      unfold rwebNext
      rw [if_neg (by simp)]
    have hstate : RWEBstate g 0 sizes cs = rwebInit (relabel g) sizes cs :=
      iterOpt_stuck hstuck _ _
    intro h hh
    rw [RWEB, if_neg (by simpa using hnl), hstate] at hh
    unfold checkFinalize rwebInit at hh
    have hcard : (SGraph.empty.addNode (pickStart (relabel g) cs)).nodes.card = 1 := by
      simp
    rcases List.mem_append.mp hh with hh | hh
    · have : h = SGraph.empty.addNode (pickStart (relabel g) cs) :=
        (advance_forall (by simp) rfl h hh).symm
      rw [this]
      exact hcard
    · rw [List.eq_of_mem_replicate hh, if_pos (by simp)]
      exact hcard
  · have hstuck : ∀ csl, sbNext (relabel g) 0 k csl (sbInit (relabel g) sizes cs) = none := by
      intro csl
      unfold sbNext
      rw [if_neg (by simp)]
    have hstate : SBstate g 0 k sizes cs css = sbInit (relabel g) sizes cs :=
      iterOpt_stuck hstuck _ _
    intro h hh
    rw [SB, if_neg (by simpa using hnl), hstate] at hh
    unfold sbFinalize sbInit at hh
    have hcard : (SGraph.empty.addNode (pickStart (relabel g) cs)).nodes.card = 1 := by
      simp
    rcases List.mem_append.mp hh with hh | hh
    · have : h = SGraph.empty.addNode (pickStart (relabel g) cs) :=
        (advance_forall (by simp) rfl h hh).symm
      rw [this]
      exact hcard
    · rw [List.eq_of_mem_replicate hh, if_pos (by simp)]
      exact hcard
  · have hstate : TIESstate g 0 sizes cs cs2 =
        ⟨∅, List.insertionSort (· ≤ ·) sizes, []⟩ := by
      simp only [TIESstate]
      exact tiesScan_stop _ _ (by simp)
    intro h hh
    rw [TIES, hstate] at hh
    unfold tiesFinalize at hh
    rcases List.mem_append.mp hh with hh | hh
    · exact absurd hh (by simp)
    · rw [List.eq_of_mem_replicate hh, if_neg (by simp)]
      simp

/-- C8 amended witness: concrete degenerate outputs for `max_n = 0` on the
one-node graph. -/
theorem spec_c8_amended_w :
    (∀ h ∈ RWEB oneN 0 [1] [0], h.nodes.card = 1) ∧
    (∀ h ∈ SB oneN 0 1 [1] [0] [], h.nodes.card = 1) ∧
    (∀ h ∈ TIES oneN 0 [1] [0] [], h.nodes.card = 0) :=
  spec_c8_amended oneN (by decide) 1 [1] [0] [] []
